import Mathlib

/-!
Verification development for the flashee-eeprom library (flashee-eeprom.h).

The C++ sources are shallowly embedded: bytes are `Nat` (kept `< 256` by
AND-only writes or by explicit hypotheses), a flash backing store is a total
function `Nat → Nat` from byte addresses to byte values, and every mutating
C++ method becomes a state-passing Lean function returning the updated device
together with the C++ return value.  `uint8_t` truncation of the
`page_index_t` type is modelled by `% 256` at exactly the conversion points
where the C++ implicitly casts.  Unbounded C loops whose progress can stall
(the slot bitmap scans, the recursive write-verify-refresh) take an explicit
fuel argument; loops that provably advance at least one byte per iteration
take a fuel that the callers instantiate with the loop bound, mirroring the
C control flow exactly on every terminating execution.
-/

set_option maxRecDepth 8192
set_option maxHeartbeats 1600000

namespace Flashee

/-- `TransferHandler`: the C callback `void (*)(page_size_t, void*, uint8_t*, page_size_t)`;
the `void* data` closure argument is absorbed into the Lean closure, and the
in-place mutation of the buffer becomes returning the transformed chunk. -/
def TransferHandler : Type := Nat → List Nat → List Nat

/-- `STACK_BUFFER_SIZE` from the source (must be a multiple of 8). -/
def STACK_BUFFER_SIZE : Nat := 128

/-! ## FakeFlashDevice

In-memory NOR-flash simulator: `writePage` ANDs into the backing store,
`erasePage` sets a page to `0xFF`, `writeErasePage` stores directly but
requires an even address and an even length. -/

structure FakeFlashDevice where
  pageCount_ : Nat
  pageSize_ : Nat
  mem : Nat → Nat

namespace FakeFlashDevice

/-- `length() = pageAddress(pageCount()) = pageCount * pageSize`. -/
def length (f : FakeFlashDevice) : Nat := f.pageCount_ * f.pageSize_

/-- `isValidRegion(address, length)`: `address + length <= pageSize() * pageCount()`. -/
def isValidRegion (f : FakeFlashDevice) (address len : Nat) : Prop :=
  address + len ≤ f.pageSize_ * f.pageCount_

instance (f : FakeFlashDevice) (a l : Nat) : Decidable (f.isValidRegion a l) := by
  unfold isValidRegion; infer_instance

/-- `readPage`: `memcpy` out of the backing store after the range check;
`none` models the `false` return (the buffer of the caller is untouched). -/
def readPage (f : FakeFlashDevice) (address len : Nat) : Option (List Nat) :=
  if f.isValidRegion address len then
    some ((List.range len).map fun i => f.mem (address + i))
  else none

/-- `writePage`: `data_[address++] &= *data++` over the range, after the range check. -/
def writePage (f : FakeFlashDevice) (data : List Nat) (address len : Nat) :
    FakeFlashDevice × Bool :=
  if f.isValidRegion address len then
    ({ f with mem := fun a =>
        if address ≤ a ∧ a < address + len then f.mem a &&& data.getD (a - address) 0
        else f.mem a }, true)
  else (f, false)

/-- `erasePage`: `memset(data_ + address, 0xFF, pageSize())` guarded only by
`isPageAddress(address)` — the source performs no range check here. -/
def erasePage (f : FakeFlashDevice) (address : Nat) : FakeFlashDevice × Bool :=
  if address % f.pageSize_ = 0 then
    ({ f with mem := fun a =>
        if address ≤ a ∧ a < address + f.pageSize_ then 0xFF else f.mem a }, true)
  else (f, false)

/-- `writeErasePage`: direct byte store, requiring an even address, an even
length and a valid range (`!(address & 1) && !(length & 1) && isValidRegion`). -/
def writeErasePage (f : FakeFlashDevice) (data : List Nat) (address len : Nat) :
    FakeFlashDevice × Bool :=
  if address % 2 = 0 ∧ len % 2 = 0 ∧ f.isValidRegion address len then
    ({ f with mem := fun a =>
        if address ≤ a ∧ a < address + len then data.getD (a - address) 0
        else f.mem a }, true)
  else (f, false)

/-- `eraseAll`: `memset(data_, -1, length())`. -/
def eraseAll (f : FakeFlashDevice) : FakeFlashDevice :=
  { f with mem := fun _ => 0xFF }

@[simp] theorem writePage_pageSize (f : FakeFlashDevice) (d a l) :
    ((f.writePage d a l).1).pageSize_ = f.pageSize_ := by
  unfold writePage; split <;> rfl

@[simp] theorem writePage_pageCount (f : FakeFlashDevice) (d a l) :
    ((f.writePage d a l).1).pageCount_ = f.pageCount_ := by
  unfold writePage; split <;> rfl

@[simp] theorem erasePage_pageSize (f : FakeFlashDevice) (a) :
    ((f.erasePage a).1).pageSize_ = f.pageSize_ := by
  unfold erasePage; split <;> rfl

@[simp] theorem erasePage_pageCount (f : FakeFlashDevice) (a) :
    ((f.erasePage a).1).pageCount_ = f.pageCount_ := by
  unfold erasePage; split <;> rfl

@[simp] theorem writeErasePage_pageSize (f : FakeFlashDevice) (d a l) :
    ((f.writeErasePage d a l).1).pageSize_ = f.pageSize_ := by
  unfold writeErasePage; split <;> rfl

@[simp] theorem writeErasePage_pageCount (f : FakeFlashDevice) (d a l) :
    ((f.writeErasePage d a l).1).pageCount_ = f.pageCount_ := by
  unfold writeErasePage; split <;> rfl

/-- Folds a sequence of `writeErasePage` calls to the same address and length. -/
def writeSeq (f : FakeFlashDevice) (address len : Nat) (ws : List (List Nat)) :
    FakeFlashDevice :=
  ws.foldl (fun g w => (g.writeErasePage w address len).1) f

end FakeFlashDevice

open FakeFlashDevice

/-- A successful aligned `writeErasePage` on the fake device stores the buffer
verbatim, so an immediate `readPage` of the same range returns it. -/
theorem fake_writeErase_read (f : FakeFlashDevice) (data : List Nat) (address len : Nat)
    (ha : address % 2 = 0) (hl : len % 2 = 0) (hr : address + len ≤ f.length)
    (hd : data.length = len) :
    (f.writeErasePage data address len).2 = true ∧
    ((f.writeErasePage data address len).1).readPage address len = some data := by
  have hmc : f.pageSize_ * f.pageCount_ = f.pageCount_ * f.pageSize_ := Nat.mul_comm _ _
  have hv : f.isValidRegion address len := by
    unfold FakeFlashDevice.isValidRegion
    unfold FakeFlashDevice.length at hr
    omega
  unfold FakeFlashDevice.writeErasePage
  rw [if_pos ⟨ha, hl, hv⟩]
  refine ⟨rfl, ?_⟩
  unfold FakeFlashDevice.readPage
  dsimp only [FakeFlashDevice.isValidRegion]
  rw [if_pos (show address + len ≤ f.pageSize_ * f.pageCount_ from hv)]
  refine congrArg some (List.ext_getElem (by simp [hd]) ?_)
  intro i h1 h2
  have hi : i < len := by simpa using h1
  simp only [List.getElem_map, List.getElem_range]
  have hin : address ≤ address + i ∧ address + i < address + len := by omega
  rw [if_pos hin, Nat.add_sub_cancel_left]
  exact List.getD_eq_getElem data 0 h2

theorem writeSeq_shape (f : FakeFlashDevice) (address len : Nat) (ws : List (List Nat)) :
    (f.writeSeq address len ws).pageSize_ = f.pageSize_ ∧
    (f.writeSeq address len ws).pageCount_ = f.pageCount_ := by
  induction ws generalizing f with
  | nil => exact ⟨rfl, rfl⟩
  | cons w ws ih =>
    unfold FakeFlashDevice.writeSeq at ih ⊢
    simpa using ih (f.writeErasePage w address len).1

/-- C3, corrected.  The universal form over every layer fails (see the
counterexample); for the bottom `FakeFlashDevice` layer restricted to even
addresses and even lengths, `writeErasePage` returns true, an immediate
`readPage` of the written range returns the buffer, and after any sequence of
such writes to the same address and length a read returns the last buffer. -/
theorem C3_writeErase_then_read (f : FakeFlashDevice) (data : List Nat)
    (address len : Nat) (ha : address % 2 = 0) (hl : len % 2 = 0)
    (hr : address + len ≤ f.length) (hd : data.length = len) :
    ((f.writeErasePage data address len).2 = true ∧
      ((f.writeErasePage data address len).1).readPage address len = some data) ∧
    (∀ ws : List (List Nat),
      (f.writeSeq address len (ws ++ [data])).readPage address len = some data) := by
  refine ⟨fake_writeErase_read f data address len ha hl hr hd, ?_⟩
  intro ws
  have hsplit : f.writeSeq address len (ws ++ [data]) =
      ((f.writeSeq address len ws).writeErasePage data address len).1 := by
    unfold FakeFlashDevice.writeSeq
    rw [List.foldl_append]
    rfl
  rw [hsplit]
  have hshape := writeSeq_shape f address len ws
  have hr2 : address + len ≤ (f.writeSeq address len ws).length := by
    unfold FakeFlashDevice.length
    rw [hshape.1, hshape.2]
    exact hr
  exact (fake_writeErase_read (f.writeSeq address len ws) data address len ha hl hr2 hd).2

/-- Witness for `C3_writeErase_then_read` at a concrete device and buffer. -/
theorem C3_writeErase_then_read_witness :
    ((0 : Nat) % 2 = 0 ∧ (2 : Nat) % 2 = 0 ∧
      (0 : Nat) + 2 ≤ (FakeFlashDevice.mk 1 4 fun _ => 0).length ∧
      ([7, 8] : List Nat).length = 2) ∧
    ((FakeFlashDevice.mk 1 4 fun _ => 0).writeErasePage [7, 8] 0 2).1.readPage 0 2 =
      some [7, 8] := by
  refine ⟨⟨rfl, rfl, by decide, rfl⟩, ?_⟩
  exact (C3_writeErase_then_read (FakeFlashDevice.mk 1 4 fun _ => 0) [7, 8] 0 2
    rfl rfl (by decide) rfl).1.2

/-- Counterexample to C3 as stated: on the `FakeFlashDevice` layer with an
odd length (address `0`, length `1`, in range), `writeErasePage` returns
false and the subsequent read does not return the buffer. -/
theorem C3_counterexample :
    (0 : Nat) + 1 ≤ (FakeFlashDevice.mk 1 4 fun _ => 0xFF).length ∧
    ¬ (((FakeFlashDevice.mk 1 4 fun _ => 0xFF).writeErasePage [0] 0 1).2 = true ∧
      ((FakeFlashDevice.mk 1 4 fun _ => 0xFF).writeErasePage [0] 0 1).1.readPage 0 1 =
        some [0]) := by
  constructor
  · decide
  · intro h
    have := h.1
    revert this
    decide

/-- C6, confirmed: every in-range `writePage` on the fake device returns true,
ANDs the data into the backing bytes of the written range, and leaves every
other byte unchanged. -/
theorem C6_writePage_and_semantics (f : FakeFlashDevice) (data : List Nat)
    (address len : Nat) (hv : address + len ≤ f.length) :
    (f.writePage data address len).2 = true ∧
    (∀ a, address ≤ a → a < address + len →
      ((f.writePage data address len).1).mem a = f.mem a &&& data.getD (a - address) 0) ∧
    (∀ a, a < address ∨ address + len ≤ a →
      ((f.writePage data address len).1).mem a = f.mem a) := by
  have hmc : f.pageSize_ * f.pageCount_ = f.pageCount_ * f.pageSize_ := Nat.mul_comm _ _
  have hv' : f.isValidRegion address len := by
    unfold FakeFlashDevice.isValidRegion
    unfold FakeFlashDevice.length at hv
    omega
  unfold FakeFlashDevice.writePage
  rw [if_pos hv']
  refine ⟨rfl, ?_, ?_⟩
  · intro a h1 h2
    simp only
    rw [if_pos ⟨h1, h2⟩]
  · intro a h
    simp only
    rw [if_neg (by omega)]

/-- Witness for `C6_writePage_and_semantics` at a concrete device. -/
theorem C6_writePage_and_semantics_witness :
    ((0 : Nat) + 2 ≤ (FakeFlashDevice.mk 1 4 fun _ => 0xF0).length) ∧
    ((FakeFlashDevice.mk 1 4 fun _ => 0xF0).writePage [0x3F, 0xFF] 0 2).1.mem 0 =
      (0xF0 : Nat) &&& 0x3F ∧
    ((FakeFlashDevice.mk 1 4 fun _ => 0xF0).writePage [0x3F, 0xFF] 0 2).1.mem 3 = 0xF0 := by
  refine ⟨by decide, ?_, ?_⟩
  · exact (C6_writePage_and_semantics (FakeFlashDevice.mk 1 4 fun _ => 0xF0)
      [0x3F, 0xFF] 0 2 (by decide)).2.1 0 (by decide) (by decide)
  · exact (C6_writePage_and_semantics (FakeFlashDevice.mk 1 4 fun _ => 0xF0)
      [0x3F, 0xFF] 0 2 (by decide)).2.2 3 (Or.inr (by decide))

/-- C7, corrected: out-of-range `readPage`, `writePage` and `writeErasePage`
return failure without touching the backing store, and `erasePage` fails
exactly on non-page-aligned addresses — a page-aligned address at or beyond
the device length still returns true (the source checks only alignment). -/
theorem C7_out_of_range (f : FakeFlashDevice) (data : List Nat) (address len : Nat) :
    (address + len > f.length → f.readPage address len = none) ∧
    (address + len > f.length → f.writePage data address len = (f, false)) ∧
    (address + len > f.length → f.writeErasePage data address len = (f, false)) ∧
    (address % f.pageSize_ ≠ 0 → f.erasePage address = (f, false)) ∧
    (address % f.pageSize_ = 0 → (f.erasePage address).2 = true) := by
  have hlen : f.pageSize_ * f.pageCount_ = f.length := by
    unfold FakeFlashDevice.length; ring
  refine ⟨?_, ?_, ?_, ?_, ?_⟩
  · intro h
    have hnv : ¬ f.isValidRegion address len := by
      unfold FakeFlashDevice.isValidRegion; omega
    unfold FakeFlashDevice.readPage
    rw [if_neg hnv]
  · intro h
    have hnv : ¬ f.isValidRegion address len := by
      unfold FakeFlashDevice.isValidRegion; omega
    unfold FakeFlashDevice.writePage
    rw [if_neg hnv]
  · intro h
    have hnv : ¬ f.isValidRegion address len := by
      unfold FakeFlashDevice.isValidRegion; omega
    unfold FakeFlashDevice.writeErasePage
    rw [if_neg (fun hc => hnv hc.2.2)]
  · intro h
    unfold FakeFlashDevice.erasePage
    rw [if_neg h]
  · intro h
    unfold FakeFlashDevice.erasePage
    rw [if_pos h]

/-- Witness for `C7_out_of_range` at a concrete device. -/
theorem C7_out_of_range_witness :
    ((9 : Nat) + 1 > (FakeFlashDevice.mk 2 4 fun _ => 0).length) ∧
    (FakeFlashDevice.mk 2 4 fun _ => 0).readPage 9 1 = none ∧
    (FakeFlashDevice.mk 2 4 fun _ => 0).writeErasePage [1] 9 1 =
      (FakeFlashDevice.mk 2 4 fun _ => 0, false) := by
  refine ⟨by decide, ?_, ?_⟩
  · exact (C7_out_of_range (FakeFlashDevice.mk 2 4 fun _ => 0) [1] 9 1).1 (by decide)
  · exact (C7_out_of_range (FakeFlashDevice.mk 2 4 fun _ => 0) [1] 9 1).2.2.1 (by decide)

/-- Counterexample to C7 as stated: `erasePage` at the page-aligned address
`8`, which is at the device length of a 2-page × 4-byte device, returns true
(and mutates the model store beyond the device) — the claim says every such
access returns false. -/
theorem C7_counterexample :
    (8 : Nat) ≥ (FakeFlashDevice.mk 2 4 fun _ => 0).length ∧
    ((FakeFlashDevice.mk 2 4 fun _ => 0).erasePage 8).2 = true ∧
    ((FakeFlashDevice.mk 2 4 fun _ => 0).erasePage 8).1.mem 9 ≠
      (FakeFlashDevice.mk 2 4 fun _ => 0).mem 9 := by
  refine ⟨by decide, by decide, by decide⟩

/-! ## MultiWriteSlotAccess

Each logical byte is stored in an 8-byte slot: byte 0 is a bitmap whose bit
`N` is cleared when sub-slot `N` has been consumed, bytes 1–7 hold successive
values.  A slot is modelled as a total function from byte index to byte
value (the C code works on a raw `uint8_t*`). -/

def Slot : Type := Nat → Nat

/-- Pointwise slot update, modelling `slot[i] = v`. -/
def updSlot (s : Slot) (i v : Nat) : Slot := fun j => if j = i then v else s j

/-- The `readSlot` index scan, `while (!(bitmap & 1)) { bitmap >>= 1; index++; }`.
`none` models the loop still spinning after `fuel` iterations; for a zero
bitmap the `uint8` shift keeps the bitmap zero, so the C loop never exits. -/
def readSlotScan (bitmap : Nat) : Nat → Option Nat
  | 0 => none
  | fuel + 1 =>
    if bitmap % 2 = 1 then some 0
    else (readSlotScan (bitmap / 2) fuel).map (· + 1)

/-- The `writeSlot` index scan, `while (!(bitmap & mask)) { index++; mask <<= 1; }`.
`mask` is a `uint8`, so after bit 7 it wraps to zero and, for a zero bitmap,
the loop never exits. -/
def writeSlotScan (bitmap mask : Nat) : Nat → Option Nat
  | 0 => none
  | fuel + 1 =>
    if bitmap &&& mask ≠ 0 then some 0
    else (writeSlotScan bitmap (mask * 2 % 256) fuel).map (· + 1)

/-- `readSlot`: locate the lowest set bitmap bit and return that byte.  Fuel 8
covers every `uint8` bitmap with a set bit; the `none` fallback (`0xFF`)
stands in for the diverging zero-bitmap loop, about which the theorems speak
through `readSlotScan` directly. -/
def readSlot (slot : Slot) : Nat :=
  match readSlotScan (slot 0) 8 with
  | some index => slot index
  | none => 0xFF

/-- `writeSlot(data, slot, inPlace)`: write a byte into the slot, consuming
the next sub-slot on a destructive write; mirrors the C control flow,
including the AND that is stored even when the write then fails. -/
def writeSlot (data : Nat) (slot : Slot) (inPlace : Bool) : Slot × Bool :=
  let bitmap := slot 0
  if bitmap = 0xFF then
    if data ≠ 0xFF then (updSlot (updSlot slot 1 data) 0 0xFE, true)
    else (slot, true)
  else
    match writeSlotScan bitmap 1 8 with
    | none => (slot, false)
    | some index =>
      let slot1 := updSlot slot index (slot index &&& data)
      if slot1 index = data ∨ inPlace = true then (slot1, true)
      else if index < 7 then
        (updSlot (updSlot slot1 0 (bitmap * 2 % 256)) (index + 1) data, true)
      else (slot1, false)

/-- Checks that each value in the list is a byte that cannot be obtained by
ANDing into the slot value current at its point in the sequence (i.e. each
write is destructive), along the states produced by `writeSlot`. -/
def destructiveSeqChk (s : Slot) : List Nat → Bool
  | [] => true
  | v :: vs =>
    if v < 256 ∧ readSlot s &&& v ≠ v then
      destructiveSeqChk (writeSlot v s false).1 vs
    else false

/-- Runs a sequence of `writeSlot` calls, stopping at the first failure;
the boolean records whether every write succeeded. -/
def destructiveRun (s : Slot) : List Nat → Slot × Bool
  | [] => (s, true)
  | v :: vs =>
    let r := writeSlot v s false
    if r.2 then destructiveRun r.1 vs else (r.1, false)

/-- After one initialising write and `k - 1` further destructive writes the
bitmap byte is `0xFF << k` as a `uint8`, i.e. `256 - 2^k`, and the current
value lives at sub-slot index `k`. -/
def SlotState (k : Nat) (s : Slot) : Prop :=
  1 ≤ k ∧ k ≤ 7 ∧ s 0 = 256 - 2 ^ k

theorem readSlotScan_state : ∀ k, k ≤ 7 → 1 ≤ k → readSlotScan (256 - 2 ^ k) 8 = some k := by
  decide

theorem writeSlotScan_state : ∀ k, k ≤ 7 → 1 ≤ k → writeSlotScan (256 - 2 ^ k) 1 8 = some k := by
  decide

theorem slotState_bitmap_ne : ∀ k, k ≤ 7 → 1 ≤ k → 256 - 2 ^ k ≠ 0xFF := by
  decide

theorem slotState_bitmap_shift : ∀ k, k ≤ 6 → 1 ≤ k → (256 - 2 ^ k) * 2 % 256 = 256 - 2 ^ (k + 1) := by
  decide

/-- Under `SlotState k`, `readSlot` returns the byte at sub-slot `k`. -/
theorem readSlot_state (k : Nat) (s : Slot) (hs : SlotState k s) : readSlot s = s k := by
  obtain ⟨hk1, hk7, hbit⟩ := hs
  unfold readSlot
  rw [hbit, readSlotScan_state k hk7 hk1]

/-- A destructive write on a slot in state `k < 7` succeeds, moves the state
to `k + 1` and stores the new value there. -/
theorem writeSlot_step_lt (k : Nat) (s : Slot) (v : Nat) (hs : SlotState k s)
    (hklt : k < 7) (hne : s k &&& v ≠ v) :
    (writeSlot v s false).2 = true ∧ SlotState (k + 1) (writeSlot v s false).1 ∧
    readSlot (writeSlot v s false).1 = v := by
  obtain ⟨hk1, hk7, hbit⟩ := hs
  have hk6 : k ≤ 6 := by omega
  unfold writeSlot
  simp only [hbit]
  rw [if_neg (slotState_bitmap_ne k hk7 hk1), writeSlotScan_state k hk7 hk1]
  simp only
  have hup : updSlot s k (s k &&& v) k = s k &&& v := by
    unfold updSlot; rw [if_pos rfl]
  rw [if_neg (by
    intro hc
    rcases hc with hc | hc
    · rw [hup] at hc; exact hne hc
    · exact Bool.false_ne_true hc)]
  rw [if_pos hklt]
  refine ⟨rfl, ⟨by omega, by omega, ?_⟩, ?_⟩
  · show updSlot (updSlot (updSlot s k (s k &&& v)) 0 ((256 - 2 ^ k) * 2 % 256)) (k + 1) v 0
      = 256 - 2 ^ (k + 1)
    unfold updSlot
    rw [if_neg (by omega), if_pos rfl]
    exact slotState_bitmap_shift k hk6 hk1
  · have hbit' : updSlot (updSlot (updSlot s k (s k &&& v)) 0 ((256 - 2 ^ k) * 2 % 256))
        (k + 1) v 0 = 256 - 2 ^ (k + 1) := by
      unfold updSlot
      rw [if_neg (by omega), if_pos rfl]
      exact slotState_bitmap_shift k hk6 hk1
    show readSlot (updSlot (updSlot (updSlot s k (s k &&& v)) 0 ((256 - 2 ^ k) * 2 % 256))
      (k + 1) v) = v
    unfold readSlot
    rw [hbit', readSlotScan_state (k + 1) (by omega) (by omega)]
    unfold updSlot
    dsimp only
    rw [if_pos rfl]

/-- A destructive write on a slot in state `7` (all sub-slots consumed) fails. -/
theorem writeSlot_step_eq7 (s : Slot) (v : Nat) (hs : SlotState 7 s)
    (hne : s 7 &&& v ≠ v) : (writeSlot v s false).2 = false := by
  obtain ⟨hk1, hk7, hbit⟩ := hs
  unfold writeSlot
  simp only [hbit]
  rw [if_neg (slotState_bitmap_ne 7 (by omega) (by omega)),
    writeSlotScan_state 7 (by omega) (by omega)]
  simp only
  have hup : updSlot s 7 (s 7 &&& v) 7 = s 7 &&& v := by
    unfold updSlot; rw [if_pos rfl]
  rw [if_neg (by
    intro hc
    rcases hc with hc | hc
    · rw [hup] at hc; exact hne hc
    · exact Bool.false_ne_true hc)]
  rw [if_neg (by omega)]

/-- The first write into an uninitialised slot (bitmap `0xFF`) with `v ≠ 0xFF`
succeeds and leaves the slot in state 1 with the value at sub-slot 1. -/
theorem writeSlot_uninit (s : Slot) (v : Nat) (hbit : s 0 = 0xFF) (hv : v ≠ 0xFF) :
    (writeSlot v s false).2 = true ∧ SlotState 1 (writeSlot v s false).1 ∧
    readSlot (writeSlot v s false).1 = v := by
  have hres : writeSlot v s false = (updSlot (updSlot s 1 v) 0 0xFE, true) := by
    unfold writeSlot
    simp only [hbit]
    rw [if_pos (by trivial), if_pos hv]
  rw [hres]
  have hb1 : updSlot (updSlot s 1 v) 0 0xFE 0 = 0xFE := by
    unfold updSlot; rw [if_pos rfl]
  refine ⟨rfl, ⟨Nat.le_refl 1, by omega, ?_⟩, ?_⟩
  · show updSlot (updSlot s 1 v) 0 0xFE 0 = 256 - 2 ^ 1
    rw [hb1]
    decide
  · show readSlot (updSlot (updSlot s 1 v) 0 0xFE) = v
    unfold readSlot
    rw [hb1, show readSlotScan 0xFE 8 = some 1 from readSlotScan_state 1 (by omega) (by omega)]
    unfold updSlot
    dsimp only
    rw [if_neg (by omega), if_pos rfl]

/-- A run of destructive writes starting in state `k` succeeds while
sub-slots remain, ending in state `k + length`. -/
theorem destructiveRun_ok (vs : List Nat) : ∀ (k : Nat) (s : Slot), SlotState k s →
    k + vs.length ≤ 7 → destructiveSeqChk s vs = true →
    (destructiveRun s vs).2 = true ∧ SlotState (k + vs.length) (destructiveRun s vs).1 := by
  induction vs with
  | nil =>
    intro k s hs _ _
    exact ⟨rfl, by simpa using hs⟩
  | cons v vs ih =>
    intro k s hs hlen hchk
    unfold destructiveSeqChk at hchk
    split at hchk
    case isFalse => exact absurd hchk Bool.false_ne_true
    case isTrue hcond =>
      have hne : s k &&& v ≠ v := by
        rw [readSlot_state k s hs] at hcond
        exact hcond.2
      have hstep := writeSlot_step_lt k s v hs (by simp at hlen; omega) hne
      unfold destructiveRun
      simp only [hstep.1, if_pos]
      have := ih (k + 1) (writeSlot v s false).1 hstep.2.1 (by simp at hlen ⊢; omega) hchk
      refine ⟨this.1, ?_⟩
      have harith : k + (v :: vs).length = (k + 1) + vs.length := by simp; omega
      rw [harith]
      exact this.2

/-- C4, confirmed: reading a slot whose bitmap byte is `0xFF` gives `0xFF`;
the first `writeSlot v` (`v ≠ 0xFF`) on such a slot succeeds and `readSlot`
then returns `v`; after that first write, six further destructive writes
(seven writes in total) all succeed, and an eighth destructive write fails. -/
theorem C4_slot_semantics :
    (∀ s : Slot, s 0 = 0xFF → readSlot s = 0xFF) ∧
    (∀ (s : Slot) (v : Nat), s 0 = 0xFF → v ≠ 0xFF →
      (writeSlot v s false).2 = true ∧ readSlot (writeSlot v s false).1 = v) ∧
    (∀ (s : Slot) (v0 v8 : Nat) (vs : List Nat), s 0 = 0xFF → v0 ≠ 0xFF →
      vs.length = 6 → destructiveSeqChk (writeSlot v0 s false).1 vs = true →
      readSlot (destructiveRun (writeSlot v0 s false).1 vs).1 &&& v8 ≠ v8 →
      (destructiveRun (writeSlot v0 s false).1 vs).2 = true ∧
      (writeSlot v8 (destructiveRun (writeSlot v0 s false).1 vs).1 false).2 = false) := by
  refine ⟨?_, ?_, ?_⟩
  · intro s hbit
    unfold readSlot
    rw [hbit, show readSlotScan 0xFF 8 = some 0 from by decide]
    exact hbit
  · intro s v hbit hv
    have h := writeSlot_uninit s v hbit hv
    exact ⟨h.1, h.2.2⟩
  · intro s v0 v8 vs hbit hv0 hlen hchk hne8
    have h0 := writeSlot_uninit s v0 hbit hv0
    have hrun := destructiveRun_ok vs 1 (writeSlot v0 s false).1 h0.2.1 (by omega) hchk
    refine ⟨hrun.1, ?_⟩
    have hs7 : SlotState 7 (destructiveRun (writeSlot v0 s false).1 vs).1 := by
      have : 1 + vs.length = 7 := by omega
      rw [this] at hrun
      exact hrun.2
    apply writeSlot_step_eq7 _ v8 hs7
    rw [readSlot_state 7 _ hs7] at hne8
    exact hne8

/-- Witness for `C4_slot_semantics`: an erased slot, first write `0xAA`, then
six alternating destructive writes, and a failing eighth destructive write. -/
theorem C4_slot_semantics_witness :
    ((fun _ => 0xFF : Slot) 0 = 0xFF ∧ (0xAA : Nat) ≠ 0xFF ∧
      ([0x55, 0xAA, 0x55, 0xAA, 0x55, 0xAA] : List Nat).length = 6 ∧
      destructiveSeqChk (writeSlot 0xAA (fun _ => 0xFF) false).1
        [0x55, 0xAA, 0x55, 0xAA, 0x55, 0xAA] = true) ∧
    (destructiveRun (writeSlot 0xAA (fun _ => 0xFF) false).1
        [0x55, 0xAA, 0x55, 0xAA, 0x55, 0xAA]).2 = true ∧
    (writeSlot 0x55 (destructiveRun (writeSlot 0xAA (fun _ => 0xFF) false).1
        [0x55, 0xAA, 0x55, 0xAA, 0x55, 0xAA]).1 false).2 = false := by
  refine ⟨⟨rfl, by decide, rfl, by decide⟩, ?_⟩
  exact C4_slot_semantics.2.2 (fun _ => 0xFF) 0xAA 0x55
    [0x55, 0xAA, 0x55, 0xAA, 0x55, 0xAA] rfl (by decide) rfl (by decide) (by decide)

/-- C9, corrected: when the bitmap byte has a set bit (and so in every state
`writeSlot` ever produces), both index scans stop at an index at most 7, so
only slot bytes 0–7 are accessed; but for a zero bitmap the scans never
terminate — the `uint8` shifts keep the scanned value zero forever — so no
index (in particular not index 8) is ever produced and no out-of-bounds read
of the slot occurs; the C loop simply hangs. -/
theorem C9_scan_bounds :
    (∀ bitmap, bitmap < 256 → bitmap ≠ 0 →
      ∃ i, i ≤ 7 ∧ readSlotScan bitmap 8 = some i ∧ writeSlotScan bitmap 1 8 = some i) ∧
    (∀ fuel, readSlotScan 0 fuel = none) ∧
    (∀ fuel mask, writeSlotScan 0 mask fuel = none) := by
  refine ⟨by decide, ?_, ?_⟩
  · intro fuel
    induction fuel with
    | zero => rfl
    | succ n ih =>
      unfold readSlotScan
      rw [if_neg (by decide)]
      simp [ih]
  · intro fuel
    induction fuel with
    | zero => intro mask; rfl
    | succ n ih =>
      intro mask
      unfold writeSlotScan
      rw [if_neg (by simp [Nat.zero_and])]
      simp [ih]

/-- Witness for `C9_scan_bounds` at the bitmap `0xFE`. -/
theorem C9_scan_bounds_witness :
    ((0xFE : Nat) < 256 ∧ (0xFE : Nat) ≠ 0) ∧
    (∃ i, i ≤ 7 ∧ readSlotScan 0xFE 8 = some i ∧ writeSlotScan 0xFE 1 8 = some i) := by
  exact ⟨⟨by decide, by decide⟩, C9_scan_bounds.1 0xFE (by decide) (by decide)⟩

/-- Counterexample to C9 as stated: the claim says that for a `0x00` bitmap
the scan reaches index 8 and reads one byte past the slot; in fact the scan
never produces any index at all — after 100 iterations (or any number) it is
still running, and it never yields 8. -/
theorem C9_counterexample :
    readSlotScan 0 9 ≠ some 8 ∧ readSlotScan 0 100 = none ∧
    writeSlotScan 0 1 100 = none := by
  refine ⟨by decide, by decide, by decide⟩

/-! ## CircularBuffer

FIFO over raw flash pages.  RAM state `(write_pointer, read_pointer, size)`
starts at zero on construction; `capacity = pageAddress(pageCount)`.  The
writer erases a page at the moment `write_pointer` enters it at offset 0. -/

structure CircularBuffer where
  flash : FakeFlashDevice
  write_pointer : Nat
  read_pointer : Nat
  capacity : Nat
  size : Nat

namespace CircularBuffer

/-- The constructor: pointers and size zero, capacity from the device. -/
def mk0 (storage : FakeFlashDevice) : CircularBuffer :=
  ⟨storage, 0, 0, storage.pageCount_ * storage.pageSize_, 0⟩

/-- The read loop of `CircularBuffer::read`: page-bounded chunks, advancing
`read_pointer`; the returned bool of the underlying `readPage` is ignored by
the C code (on failure the stack buffer holds indeterminate bytes, modelled
as zeros).  The C locals `blockSize`, `offset` and `blockRead` are inlined.
The loop advances at least one byte per iteration whenever `pageSize > 0`,
so `toRead` itself bounds the iteration count and callers pass it as fuel. -/
def readLoop (cb : CircularBuffer) (acc : List Nat) (toRead : Nat) :
    Nat → CircularBuffer × List Nat
  | 0 => (cb, acc)
  | fuel + 1 =>
    if toRead = 0 then (cb, acc)
    else if min toRead (cb.flash.pageSize_ - cb.read_pointer % cb.flash.pageSize_) = 0 then
      (cb, acc)
    else
      readLoop
        { cb with read_pointer := (cb.read_pointer +
            min toRead (cb.flash.pageSize_ - cb.read_pointer % cb.flash.pageSize_)) }
        (acc ++ (match cb.flash.readPage cb.read_pointer
            (min toRead (cb.flash.pageSize_ - cb.read_pointer % cb.flash.pageSize_)) with
          | some bs => bs
          | none => List.replicate
              (min toRead (cb.flash.pageSize_ - cb.read_pointer % cb.flash.pageSize_)) 0))
        (toRead - min toRead (cb.flash.pageSize_ - cb.read_pointer % cb.flash.pageSize_))
        fuel

/-- The number of bytes `CircularBuffer::read` will transfer: up to the
write pointer when it is ahead, else up to the end of flash. -/
def readCount (cb : CircularBuffer) (length : Nat) : Nat :=
  if 0 < (cb.write_pointer : Int) - (cb.read_pointer : Int) then
    min ((cb.write_pointer : Int) - (cb.read_pointer : Int)).toNat length
  else min (cb.capacity - cb.read_pointer) length

/-- `CircularBuffer::read`: returns the updated buffer, the byte count and
the bytes handed to the caller.  The loop leaves `size` and `capacity`
untouched, so the final `read_pointer` wrap test against `capacity` and the
`size -= result` update are written against the fields of `cb` directly. -/
def read (cb : CircularBuffer) (length : Nat) : CircularBuffer × Nat × List Nat :=
  if length = 0 ∨ cb.size = 0 then (cb, 0, [])
  else
    ({ (cb.readLoop [] (cb.readCount length) (cb.readCount length)).1 with
        read_pointer :=
          if (cb.readLoop [] (cb.readCount length) (cb.readCount length)).1.read_pointer =
              cb.capacity then 0
          else (cb.readLoop [] (cb.readCount length) (cb.readCount length)).1.read_pointer,
        size := cb.size - cb.readCount length },
      cb.readCount length,
      (cb.readLoop [] (cb.readCount length) (cb.readCount length)).2)

/-- The write loop of `CircularBuffer::write`: erases a page when
`write_pointer` is at its start, then ANDs the chunk in via `writePage`
(over freshly erased bytes this stores the chunk verbatim); the return
values of the flash calls are ignored exactly as in the C code.  The C
locals `blockSize`, `offset` and `blockWrite` are inlined. -/
def writeLoop (cb : CircularBuffer) (data : List Nat) (idx toWrite : Nat) :
    Nat → CircularBuffer
  | 0 => cb
  | fuel + 1 =>
    if toWrite = 0 then cb
    else if min toWrite (cb.flash.pageSize_ - cb.write_pointer % cb.flash.pageSize_) = 0 then
      cb
    else
      writeLoop
        { cb with
          flash := ((if cb.write_pointer % cb.flash.pageSize_ = 0 then
                (cb.flash.erasePage cb.write_pointer).1
              else cb.flash).writePage (data.drop idx) cb.write_pointer
              (min toWrite (cb.flash.pageSize_ - cb.write_pointer % cb.flash.pageSize_))).1,
          write_pointer := (cb.write_pointer +
            min toWrite (cb.flash.pageSize_ - cb.write_pointer % cb.flash.pageSize_)) }
        data
        (idx + min toWrite (cb.flash.pageSize_ - cb.write_pointer % cb.flash.pageSize_))
        (toWrite - min toWrite (cb.flash.pageSize_ - cb.write_pointer % cb.flash.pageSize_))
        fuel

/-- The number of bytes `CircularBuffer::write` will transfer: up to the end
of flash when the writer is at or ahead of the reader, else up to the start
of the page the reader is on. -/
def writeCount (cb : CircularBuffer) (length : Nat) : Nat :=
  if 0 ≤ (cb.write_pointer : Int) - (cb.read_pointer : Int) then
    min (cb.capacity - cb.write_pointer) length
  else
    min ((cb.read_pointer - cb.read_pointer % cb.flash.pageSize_) - cb.write_pointer) length

/-- `CircularBuffer::write`: returns the updated buffer and the byte count.
As in `read`, the wrap test and `size += result` are written against the
fields the loop does not touch. -/
def write (cb : CircularBuffer) (data : List Nat) (length : Nat) :
    CircularBuffer × Nat :=
  if length = 0 ∨ cb.size = cb.capacity then (cb, 0)
  else
    ({ cb.writeLoop data 0 (cb.writeCount length) (cb.writeCount length) with
        write_pointer :=
          if (cb.writeLoop data 0 (cb.writeCount length) (cb.writeCount length)).write_pointer =
              cb.capacity then 0
          else (cb.writeLoop data 0 (cb.writeCount length) (cb.writeCount length)).write_pointer,
        size := cb.size + cb.writeCount length },
      cb.writeCount length)

/-- `available()`. -/
def available (cb : CircularBuffer) : Nat := cb.size

end CircularBuffer

/-! ### Helper lemmas about the fake device operations -/

theorem fake_writePage_eq (f : FakeFlashDevice) (data : List Nat) (address len : Nat)
    (h : address + len ≤ f.length) :
    f.writePage data address len =
      ({ f with mem := fun a =>
          if address ≤ a ∧ a < address + len then f.mem a &&& data.getD (a - address) 0
          else f.mem a }, true) := by
  have hmc : f.pageSize_ * f.pageCount_ = f.pageCount_ * f.pageSize_ := Nat.mul_comm _ _
  unfold FakeFlashDevice.writePage
  rw [if_pos (by unfold FakeFlashDevice.isValidRegion; unfold FakeFlashDevice.length at h; omega)]

theorem fake_erasePage_eq (f : FakeFlashDevice) (address : Nat)
    (h : address % f.pageSize_ = 0) :
    f.erasePage address =
      ({ f with mem := fun a =>
          if address ≤ a ∧ a < address + f.pageSize_ then 0xFF else f.mem a }, true) := by
  unfold FakeFlashDevice.erasePage
  rw [if_pos h]

theorem fake_readPage_eq (f : FakeFlashDevice) (address len : Nat)
    (h : address + len ≤ f.length) :
    f.readPage address len = some ((List.range len).map fun i => f.mem (address + i)) := by
  have hmc : f.pageSize_ * f.pageCount_ = f.pageCount_ * f.pageSize_ := Nat.mul_comm _ _
  unfold FakeFlashDevice.readPage
  rw [if_pos (by unfold FakeFlashDevice.isValidRegion; unfold FakeFlashDevice.length at h; omega)]

/-- ANDing a byte into an erased (`0xFF`) cell stores the byte. -/
theorem and255_eq (b : Nat) (h : b < 256) : 255 &&& b = b := by
  rw [Nat.and_comm]
  have h2 : b &&& 2 ^ 8 - 1 = b % 2 ^ 8 := Nat.and_pow_two_sub_one_eq_mod b 8
  norm_num at h2
  rw [h2, Nat.mod_eq_of_lt h]

theorem getD_drop_eq (l : List Nat) (i j d : Nat) : (l.drop i).getD j d = l.getD (i + j) d := by
  simp [List.getD_eq_getElem?_getD, List.getElem?_drop]

theorem getD_lt_256 (l : List Nat) (h : ∀ b ∈ l, b < 256) (i : Nat) : l.getD i 0 < 256 := by
  by_cases hi : i < l.length
  · rw [List.getD_eq_getElem l 0 hi]
    exact h _ (List.getElem_mem hi)
  · rw [List.getD_eq_default l 0 (by omega)]
    omega

/-- Specification of the `CircularBuffer` write loop: starting with either a
page-aligned write pointer or the rest of its page erased, the loop writes
`data[idx..idx+toWrite)` verbatim at `[w, w+toWrite)`, leaves every byte
below `w` and all RAM fields except the write pointer unchanged, and
advances the pointer by exactly `toWrite`. -/
theorem writeLoop_spec (fuel : Nat) :
    ∀ (cb : CircularBuffer) (data : List Nat) (idx toWrite : Nat),
    toWrite ≤ fuel →
    1 ≤ cb.flash.pageSize_ →
    cb.write_pointer + toWrite ≤ cb.flash.length →
    (∀ b ∈ data, b < 256) →
    (cb.write_pointer % cb.flash.pageSize_ ≠ 0 →
      ∀ a, cb.write_pointer ≤ a →
        a < cb.write_pointer + (cb.flash.pageSize_ - cb.write_pointer % cb.flash.pageSize_) →
        cb.flash.mem a = 0xFF) →
    (cb.writeLoop data idx toWrite fuel).write_pointer = cb.write_pointer + toWrite ∧
    (cb.writeLoop data idx toWrite fuel).read_pointer = cb.read_pointer ∧
    (cb.writeLoop data idx toWrite fuel).size = cb.size ∧
    (cb.writeLoop data idx toWrite fuel).capacity = cb.capacity ∧
    (cb.writeLoop data idx toWrite fuel).flash.pageSize_ = cb.flash.pageSize_ ∧
    (cb.writeLoop data idx toWrite fuel).flash.pageCount_ = cb.flash.pageCount_ ∧
    (∀ a, cb.write_pointer ≤ a → a < cb.write_pointer + toWrite →
      (cb.writeLoop data idx toWrite fuel).flash.mem a =
        data.getD (idx + (a - cb.write_pointer)) 0) ∧
    (∀ a, a < cb.write_pointer →
      (cb.writeLoop data idx toWrite fuel).flash.mem a = cb.flash.mem a) := by
  induction fuel with
  | zero =>
    intro cb data idx toWrite hf hps hlen hb hFF
    have h0 : toWrite = 0 := Nat.le_zero.mp hf
    subst h0
    exact ⟨rfl, rfl, rfl, rfl, rfl, rfl, fun a h1 h2 => absurd h2 (by omega),
      fun a h => rfl⟩
  | succ fuel ih =>
    intro cb data idx toWrite hf hps hlen hb hFF
    by_cases h0 : toWrite = 0
    · subst h0
      have hred : cb.writeLoop data idx 0 (fuel + 1) = cb := by
        unfold CircularBuffer.writeLoop
        rw [if_pos rfl]
      rw [hred]
      exact ⟨by omega, rfl, rfl, rfl, rfl, rfl, fun a h1 h2 => absurd h2 (by omega),
        fun a h => rfl⟩
    · have hoff_lt : cb.write_pointer % cb.flash.pageSize_ < cb.flash.pageSize_ :=
        Nat.mod_lt _ (by omega)
      have hbw1 : 1 ≤ min toWrite
          (cb.flash.pageSize_ - cb.write_pointer % cb.flash.pageSize_) :=
        le_min (by omega) (by omega)
      unfold CircularBuffer.writeLoop
      rw [if_neg h0, if_neg (by omega)]
      set ps := cb.flash.pageSize_ with hpsdef
      set w := cb.write_pointer with hwdef
      set bw := min toWrite (ps - w % ps) with hbwdef
      have hbw_le : bw ≤ toWrite := Nat.min_le_left _ _
      have hbw_le2 : bw ≤ ps - w % ps := Nat.min_le_right _ _
      set fl1 := if w % ps = 0 then (cb.flash.erasePage w).1 else cb.flash with hfl1
      set fl2 := (fl1.writePage (data.drop idx) w bw).1 with hfl2
      -- shape of the intermediate devices
      have hfl1shape : fl1.pageSize_ = ps ∧ fl1.pageCount_ = cb.flash.pageCount_ := by
        rw [hfl1]; split <;> simp [hpsdef]
      have hfl2shape : fl2.pageSize_ = ps ∧ fl2.pageCount_ = cb.flash.pageCount_ := by
        rw [hfl2]
        simp [hfl1shape.1, hfl1shape.2]
      have hfl1len : fl1.length = cb.flash.length := by
        unfold FakeFlashDevice.length
        rw [hfl1shape.1, hfl1shape.2, hpsdef]
      have hfl2len : fl2.length = cb.flash.length := by
        unfold FakeFlashDevice.length
        rw [hfl2shape.1, hfl2shape.2, hpsdef]
      -- bytes of fl1: erased from w up to the end of the page of w
      have hmem1_ff : ∀ a, w ≤ a → a < w + (ps - w % ps) → fl1.mem a = 0xFF := by
        intro a h1 h2
        rw [hfl1]
        by_cases hofs : w % ps = 0
        · rw [if_pos hofs, fake_erasePage_eq cb.flash w hofs]
          simp only
          rw [← hpsdef, if_pos (show w ≤ a ∧ a < w + ps by omega)]
        · rw [if_neg hofs]
          exact hFF hofs a h1 (by omega)
      have hmem1_keep : ∀ a, a < w → fl1.mem a = cb.flash.mem a := by
        intro a h1
        rw [hfl1]
        by_cases hofs : w % ps = 0
        · rw [if_pos hofs, fake_erasePage_eq cb.flash w hofs]
          simp only
          rw [if_neg (by omega)]
        · rw [if_neg hofs]
      have hwv : w + bw ≤ fl1.length := by rw [hfl1len]; omega
      have hfl2eq : fl2 = { fl1 with mem := (fun a =>
          if w ≤ a ∧ a < w + bw then fl1.mem a &&& (data.drop idx).getD (a - w) 0
          else fl1.mem a) } := by
        rw [hfl2, fake_writePage_eq fl1 (data.drop idx) w bw hwv]
      -- bytes of fl2
      have hmem2_written : ∀ a, w ≤ a → a < w + bw →
          fl2.mem a = data.getD (idx + (a - w)) 0 := by
        intro a h1 h2
        rw [hfl2eq]
        simp only
        rw [if_pos ⟨h1, h2⟩, hmem1_ff a h1 (by omega), getD_drop_eq,
          and255_eq _ (getD_lt_256 data hb _)]
      have hmem2_keep : ∀ a, a < w → fl2.mem a = cb.flash.mem a := by
        intro a h1
        rw [hfl2eq]
        simp only
        rw [if_neg (by omega)]
        exact hmem1_keep a h1
      -- modular arithmetic for the advanced write pointer
      have hde : w % ps + w / ps * ps = w := Nat.mod_add_div' w ps
      have hmod : (w + bw) % ps = (w % ps + bw) % ps := by
        conv_lhs => rw [show w + bw = w % ps + bw + w / ps * ps by omega]
        rw [Nat.add_mul_mod_self_right]
      have hmem2_ff : (w + bw) % ps ≠ 0 →
          ∀ a, w + bw ≤ a → a < (w + bw) + (ps - (w + bw) % ps) → fl2.mem a = 0xFF := by
        intro hne a h1 h2
        have hlt : w % ps + bw < ps := by
          rcases Nat.lt_or_ge (w % ps + bw) ps with h | h
          · exact h
          · have heq : w % ps + bw = ps := by omega
            rw [hmod, heq, Nat.mod_self] at hne
            exact absurd rfl hne
        have hmodval : (w + bw) % ps = w % ps + bw := by
          rw [hmod, Nat.mod_eq_of_lt hlt]
        rw [hmodval] at h2
        rw [hfl2eq]
        simp only
        rw [if_neg (by omega)]
        exact hmem1_ff a (by omega) (by omega)
      -- apply the induction hypothesis to the advanced state
      have hIH := ih { cb with flash := fl2, write_pointer := w + bw } data (idx + bw)
        (toWrite - bw) (by omega)
        (by show 1 ≤ fl2.pageSize_; rw [hfl2shape.1]; exact hps)
        (by show w + bw + (toWrite - bw) ≤ fl2.length; rw [hfl2len]; omega) hb
        (by
          show (w + bw) % fl2.pageSize_ ≠ 0 → _
          rw [hfl2shape.1]
          intro hne a h1 h2
          exact hmem2_ff hne a h1 h2)
      obtain ⟨hw2, hr2, hs2, hc2, hps2, hpc2, hrange2, hbelow2⟩ := hIH
      have hproj : ({ cb with flash := fl2, write_pointer := w + bw } :
          CircularBuffer).write_pointer = w + bw := rfl
      rw [hproj] at hw2 hrange2 hbelow2
      refine ⟨by rw [hw2]; omega, by rw [hr2], by rw [hs2], by rw [hc2],
        by rw [hps2]; exact hfl2shape.1, by rw [hpc2]; exact hfl2shape.2, ?_, ?_⟩
      · intro a h1 h2
        by_cases hcase : w + bw ≤ a
        · have h3 := hrange2 a hcase (by omega)
          have hidx : idx + bw + (a - (w + bw)) = idx + (a - w) := by omega
          rw [hidx] at h3
          exact h3
        · have hlt : a < w + bw := by omega
          rw [hbelow2 a hlt]
          exact hmem2_written a h1 hlt
      · intro a h1
        rw [hbelow2 a (by omega)]
        exact hmem2_keep a h1

/-- Specification of the `CircularBuffer` read loop: it returns the bytes of
the backing store at `[r, r+toRead)` appended to the accumulator, advances
the read pointer by exactly `toRead`, and changes nothing else. -/
theorem readLoop_spec (fuel : Nat) :
    ∀ (cb : CircularBuffer) (acc : List Nat) (toRead : Nat),
    toRead ≤ fuel →
    1 ≤ cb.flash.pageSize_ →
    cb.read_pointer + toRead ≤ cb.flash.length →
    (cb.readLoop acc toRead fuel).1.read_pointer = cb.read_pointer + toRead ∧
    (cb.readLoop acc toRead fuel).1.write_pointer = cb.write_pointer ∧
    (cb.readLoop acc toRead fuel).1.size = cb.size ∧
    (cb.readLoop acc toRead fuel).1.capacity = cb.capacity ∧
    (cb.readLoop acc toRead fuel).1.flash = cb.flash ∧
    (cb.readLoop acc toRead fuel).2 =
      acc ++ (List.range toRead).map (fun i => cb.flash.mem (cb.read_pointer + i)) := by
  induction fuel with
  | zero =>
    intro cb acc toRead hf hps hlen
    have h0 : toRead = 0 := Nat.le_zero.mp hf
    subst h0
    exact ⟨rfl, rfl, rfl, rfl, rfl, by simp [CircularBuffer.readLoop]⟩
  | succ fuel ih =>
    intro cb acc toRead hf hps hlen
    by_cases h0 : toRead = 0
    · subst h0
      have hred : cb.readLoop acc 0 (fuel + 1) = (cb, acc) := by
        unfold CircularBuffer.readLoop
        rw [if_pos rfl]
      rw [hred]
      exact ⟨by simp, rfl, rfl, rfl, rfl, by simp⟩
    · have hoff_lt : cb.read_pointer % cb.flash.pageSize_ < cb.flash.pageSize_ :=
        Nat.mod_lt _ (by omega)
      have hbr1 : 1 ≤ min toRead
          (cb.flash.pageSize_ - cb.read_pointer % cb.flash.pageSize_) :=
        le_min (by omega) (by omega)
      unfold CircularBuffer.readLoop
      rw [if_neg h0, if_neg (by omega)]
      set ps := cb.flash.pageSize_ with hpsdef
      set r := cb.read_pointer with hrdef
      set br := min toRead (ps - r % ps) with hbrdef
      have hbr_le : br ≤ toRead := Nat.min_le_left _ _
      rw [fake_readPage_eq cb.flash r br (by omega)]
      have hIH := ih { cb with read_pointer := r + br }
        (acc ++ (List.range br).map fun i => cb.flash.mem (r + i)) (toRead - br)
        (by omega) hps (by show r + br + (toRead - br) ≤ cb.flash.length; omega)
      obtain ⟨h1, h2, h3, h4, h5, h6⟩ := hIH
      have hproj : ({ cb with read_pointer := r + br } : CircularBuffer).read_pointer =
          r + br := rfl
      rw [hproj] at h1
      have hproj2 : ({ cb with read_pointer := r + br } : CircularBuffer).flash =
          cb.flash := rfl
      refine ⟨by rw [h1]; omega, by rw [h2], by rw [h3], by rw [h4], by rw [h5], ?_⟩
      rw [h6, hproj, hproj2]
      show acc ++ _ ++ _ = acc ++ _
      rw [List.append_assoc]
      refine congrArg (acc ++ ·) ?_
      have hsplit : toRead = br + (toRead - br) := by omega
      conv_rhs => rw [hsplit, List.range_add, List.map_append, List.map_map]
      refine congrArg (List.map (fun i => cb.flash.mem (r + i)) (List.range br) ++ ·) ?_
      refine List.map_congr_left ?_
      intro i _
      show cb.flash.mem (r + br + i) = cb.flash.mem (r + (br + i))
      rw [Nat.add_assoc]

/-- Writing into an empty buffer whose pointers are both at zero transfers
the whole request (up to capacity) and stores the bytes verbatim. -/
theorem cb_write_fresh (cb : CircularBuffer) (data : List Nat) (n : Nat)
    (hps : 1 ≤ cb.flash.pageSize_)
    (hw : cb.write_pointer = 0) (hr : cb.read_pointer = 0) (hsz : cb.size = 0)
    (hcap : cb.capacity = cb.flash.length)
    (hn : 0 < n) (hncap : n ≤ cb.capacity) (hb : ∀ b ∈ data, b < 256) :
    (cb.write data n).2 = n ∧
    (cb.write data n).1.write_pointer = (if n = cb.capacity then 0 else n) ∧
    (cb.write data n).1.read_pointer = 0 ∧
    (cb.write data n).1.size = n ∧
    (cb.write data n).1.capacity = cb.capacity ∧
    (cb.write data n).1.flash.pageSize_ = cb.flash.pageSize_ ∧
    (cb.write data n).1.flash.pageCount_ = cb.flash.pageCount_ ∧
    (∀ a, a < n → (cb.write data n).1.flash.mem a = data.getD a 0) := by
  have hwc : cb.writeCount n = n := by
    unfold CircularBuffer.writeCount
    rw [hw, hr]
    rw [if_pos (by simp)]
    rw [Nat.sub_zero]
    exact Nat.min_eq_right hncap
  have hL := writeLoop_spec n cb data 0 n le_rfl hps
    (by rw [hw]; unfold FakeFlashDevice.length at hcap ⊢; omega) hb
    (by intro hne; exact absurd (by rw [hw]; exact Nat.zero_mod _) hne)
  obtain ⟨hw1, hr1, hs1, hc1, hps1, hpc1, hrange1, _⟩ := hL
  have hl1 : (cb.writeLoop data 0 n n).write_pointer = n := by
    rw [hw1, hw]
    omega
  unfold CircularBuffer.write
  rw [if_neg (not_or.mpr ⟨by omega, by omega⟩), hwc]
  refine ⟨rfl, ?_, ?_, ?_, ?_, ?_, ?_, ?_⟩
  · show (if (cb.writeLoop data 0 n n).write_pointer = cb.capacity then 0
      else (cb.writeLoop data 0 n n).write_pointer) = if n = cb.capacity then 0 else n
    rw [hl1]
  · show (cb.writeLoop data 0 n n).read_pointer = 0
    rw [hr1, hr]
  · show cb.size + n = n
    omega
  · show (cb.writeLoop data 0 n n).capacity = cb.capacity
    exact hc1
  · show (cb.writeLoop data 0 n n).flash.pageSize_ = cb.flash.pageSize_
    exact hps1
  · show (cb.writeLoop data 0 n n).flash.pageCount_ = cb.flash.pageCount_
    exact hpc1
  · intro a ha
    show (cb.writeLoop data 0 n n).flash.mem a = data.getD a 0
    have := hrange1 a (by omega) (by omega)
    rw [hw] at this
    simpa using this

/-- Reading `n` bytes from a buffer holding exactly the `n` bytes of `data`
at the bottom of flash returns them all and empties the buffer. -/
theorem cb_read_after (cb : CircularBuffer) (data : List Nat) (n : Nat)
    (hps : 1 ≤ cb.flash.pageSize_) (hr : cb.read_pointer = 0)
    (hw : cb.write_pointer = if n = cb.capacity then 0 else n)
    (hsz : cb.size = n) (hcap : cb.capacity = cb.flash.length)
    (hn : 0 < n) (hncap : n ≤ cb.capacity)
    (hmem : ∀ a, a < n → cb.flash.mem a = data.getD a 0)
    (hd : data.length = n) :
    (cb.read n).2.1 = n ∧ (cb.read n).2.2 = data ∧
    (cb.read n).1.read_pointer = (if n = cb.capacity then 0 else n) ∧
    (cb.read n).1.write_pointer = cb.write_pointer ∧
    (cb.read n).1.size = 0 ∧
    (cb.read n).1.capacity = cb.capacity ∧
    (cb.read n).1.flash = cb.flash := by
  have hrc : cb.readCount n = n := by
    unfold CircularBuffer.readCount
    rw [hw, hr]
    by_cases hcase : n = cb.capacity
    · rw [if_pos hcase]
      rw [if_neg (by simp)]
      rw [Nat.sub_zero]
      exact Nat.min_eq_right hncap
    · rw [if_neg hcase]
      rw [if_pos (by push_cast; omega)]
      have : ((n : Int) - (0 : Nat)).toNat = n := by push_cast; omega
      rw [this]
      exact Nat.min_self n
  have hL := readLoop_spec n cb [] n le_rfl hps
    (by rw [hr]; unfold FakeFlashDevice.length at hcap ⊢; omega)
  obtain ⟨h1, h2, h3, h4, h5, h6⟩ := hL
  have hl1 : (cb.readLoop [] n n).1.read_pointer = n := by
    rw [h1, hr]
    omega
  unfold CircularBuffer.read
  rw [if_neg (not_or.mpr ⟨by omega, by omega⟩), hrc]
  refine ⟨rfl, ?_, ?_, ?_, ?_, ?_, ?_⟩
  · show (cb.readLoop [] n n).2 = data
    rw [h6, hr]
    refine List.ext_getElem (by simp [hd]) ?_
    intro i hi1 hi2
    have hi : i < n := by simpa using hi1
    simp only [List.nil_append, List.getElem_map, List.getElem_range]
    rw [Nat.zero_add, hmem i hi]
    exact List.getD_eq_getElem data 0 hi2
  · show (if (cb.readLoop [] n n).1.read_pointer = cb.capacity then 0
      else (cb.readLoop [] n n).1.read_pointer) = if n = cb.capacity then 0 else n
    rw [hl1]
  · show (cb.readLoop [] n n).1.write_pointer = cb.write_pointer
    exact h2
  · show cb.size - n = 0
    omega
  · show (cb.readLoop [] n n).1.capacity = cb.capacity
    exact h4
  · show (cb.readLoop [] n n).1.flash = cb.flash
    exact h5

/-- C8, confirmed: `write` returns 0 when the buffer is full; `read` returns
0 when it is empty; from a freshly constructed buffer a write of `n ≤
capacity` bytes transfers all of them and a subsequent read of `n` bytes
returns exactly those bytes in order; and after filling the whole capacity
and draining it completely — both pointers having wrapped to 0 — a further
write succeeds (returns a positive count). -/
theorem C8_circular_buffer :
    (∀ (cb : CircularBuffer) (data : List Nat) (len : Nat),
      cb.size = cb.capacity → (cb.write data len).2 = 0) ∧
    (∀ (cb : CircularBuffer) (len : Nat), cb.size = 0 → (cb.read len).2.1 = 0) ∧
    (∀ (f : FakeFlashDevice) (data : List Nat) (n : Nat),
      1 ≤ f.pageSize_ → 0 < n → n ≤ f.length → data.length = n →
      (∀ b ∈ data, b < 256) →
      ((CircularBuffer.mk0 f).write data n).2 = n ∧
      (((CircularBuffer.mk0 f).write data n).1.read n).2.1 = n ∧
      (((CircularBuffer.mk0 f).write data n).1.read n).2.2 = data) ∧
    (∀ (f : FakeFlashDevice) (data data2 : List Nat) (n2 : Nat),
      1 ≤ f.pageSize_ → 0 < f.length → data.length = f.length →
      (∀ b ∈ data, b < 256) → (∀ b ∈ data2, b < 256) →
      0 < n2 → n2 ≤ f.length → data2.length = n2 →
      0 < ((((CircularBuffer.mk0 f).write data f.length).1.read f.length).1.write
        data2 n2).2) := by
  have hfull : ∀ (cb : CircularBuffer) (data : List Nat) (len : Nat),
      cb.size = cb.capacity → (cb.write data len).2 = 0 := by
    intro cb data len hsz
    unfold CircularBuffer.write
    rw [if_pos (Or.inr hsz)]
  have hempty : ∀ (cb : CircularBuffer) (len : Nat), cb.size = 0 → (cb.read len).2.1 = 0 := by
    intro cb len hsz
    unfold CircularBuffer.read
    rw [if_pos (Or.inr hsz)]
  have hwr : ∀ (f : FakeFlashDevice) (data : List Nat) (n : Nat),
      1 ≤ f.pageSize_ → 0 < n → n ≤ f.length → data.length = n →
      (∀ b ∈ data, b < 256) →
      ((CircularBuffer.mk0 f).write data n).2 = n ∧
      (((CircularBuffer.mk0 f).write data n).1.read n).2.1 = n ∧
      (((CircularBuffer.mk0 f).write data n).1.read n).2.2 = data ∧
      (((CircularBuffer.mk0 f).write data n).1.read n).1.size = 0 ∧
      (((CircularBuffer.mk0 f).write data n).1.read n).1.capacity = f.length ∧
      (((CircularBuffer.mk0 f).write data n).1.read n).1.read_pointer =
        (if n = f.length then 0 else n) ∧
      (((CircularBuffer.mk0 f).write data n).1.read n).1.write_pointer =
        (if n = f.length then 0 else n) ∧
      (((CircularBuffer.mk0 f).write data n).1.read n).1.flash.pageSize_ = f.pageSize_ ∧
      (((CircularBuffer.mk0 f).write data n).1.read n).1.flash.pageCount_ =
        f.pageCount_ := by
    intro f data n hps hn hncap hd hb
    have hcap0 : (CircularBuffer.mk0 f).capacity = f.length := rfl
    have hm0ps : (CircularBuffer.mk0 f).flash.pageSize_ = f.pageSize_ := rfl
    have hm0pc : (CircularBuffer.mk0 f).flash.pageCount_ = f.pageCount_ := rfl
    have hW := cb_write_fresh (CircularBuffer.mk0 f) data n hps rfl rfl rfl rfl hn
      (by rw [hcap0]; exact hncap) hb
    obtain ⟨hW1, hW2, hW3, hW4, hW5, hW6, hW7, hW8⟩ := hW
    rw [hcap0] at hW2 hW5
    rw [hm0ps] at hW6
    rw [hm0pc] at hW7
    set cb1 := ((CircularBuffer.mk0 f).write data n).1 with hcb1
    have hlen1 : cb1.flash.length = f.length := by
      unfold FakeFlashDevice.length
      rw [hW6, hW7]
    have hR := cb_read_after cb1 data n (by rw [hW6]; exact hps) hW3
      (by rw [hW2, hW5]) hW4 (by rw [hW5, hlen1]) hn
      (by rw [hW5]; exact hncap) hW8 hd
    obtain ⟨hR1, hR2, hR3, hR4, hR5, hR6, hR7⟩ := hR
    refine ⟨hW1, hR1, hR2, ?_, ?_, ?_, ?_, ?_, ?_⟩
    · rw [hR5]
    · rw [hR6, hW5]
    · rw [hR3, hW5]
    · rw [hR4, hW2]
    · rw [hR7, hW6]
    · rw [hR7, hW7]
  refine ⟨hfull, hempty, fun f data n h1 h2 h3 h4 h5 => ?_, ?_⟩
  · obtain ⟨a, b, c, _⟩ := hwr f data n h1 h2 h3 h4 h5
    exact ⟨a, b, c⟩
  · intro f data data2 n2 hps hlenpos hd hb hb2 hn2 hn2cap hd2
    obtain ⟨_, _, _, hS, hC, hRp, hWp, hPs, hPc⟩ :=
      hwr f data f.length hps hlenpos (le_refl _) hd hb
    set cb2 := (((CircularBuffer.mk0 f).write data f.length).1.read f.length).1 with hcb2
    have hWp0 : cb2.write_pointer = 0 := by rw [hWp, if_pos rfl]
    have hRp0 : cb2.read_pointer = 0 := by rw [hRp, if_pos rfl]
    have hcap2 : cb2.capacity = cb2.flash.length := by
      rw [hC]
      unfold FakeFlashDevice.length
      rw [hPs, hPc]
    have hW2 := cb_write_fresh cb2 data2 n2 (by rw [hPs]; exact hps) hWp0 hRp0 hS hcap2
      hn2 (by rw [hC]; exact hn2cap) hb2
    rw [hW2.1]
    exact hn2

/-- Witness for `C8_circular_buffer`: a 2-page × 2-byte device, a full
4-byte write and drain, then a further 2-byte write. -/
theorem C8_circular_buffer_witness :
    ((1 : Nat) ≤ (FakeFlashDevice.mk 2 2 fun _ => 0).pageSize_ ∧
      (0 : Nat) < (FakeFlashDevice.mk 2 2 fun _ => 0).length ∧
      ([1, 2, 3, 4] : List Nat).length = (FakeFlashDevice.mk 2 2 fun _ => 0).length ∧
      (∀ b ∈ ([1, 2, 3, 4] : List Nat), b < 256) ∧
      (∀ b ∈ ([7, 8] : List Nat), b < 256) ∧ (0 : Nat) < 2 ∧
      (2 : Nat) ≤ (FakeFlashDevice.mk 2 2 fun _ => 0).length ∧
      ([7, 8] : List Nat).length = 2) ∧
    0 < ((((CircularBuffer.mk0 (FakeFlashDevice.mk 2 2 fun _ => 0)).write [1, 2, 3, 4]
      (FakeFlashDevice.mk 2 2 fun _ => 0).length).1.read
      (FakeFlashDevice.mk 2 2 fun _ => 0).length).1.write [7, 8] 2).2 := by
  refine ⟨⟨by decide, by decide, by decide, by decide, by decide, by decide, by decide,
    by decide⟩, ?_⟩
  exact C8_circular_buffer.2.2.2 (FakeFlashDevice.mk 2 2 fun _ => 0) [1, 2, 3, 4] [7, 8] 2
    (by decide) (by decide) (by decide) (by decide) (by decide) (by decide) (by decide)
    (by decide)

/-! ## LogicalPageMapper

The wear-levelling core: a logical→physical page table reconstructed at
mount from 2-byte per-page headers, with allocation on demand from a
pseudo-random probe position.  `LogicalPageMapperImpl` and its thin
`LogicalPageMapper` wrapper are merged into one state type over the fake
device; the successive `rand()` results are supplied by the `rnds` stream.
The C RAM arrays (`uint8_t* inUse`, bit-packed, and `page_index_t*
logicalPageMap`) are modelled as one Bool per page index and one `Nat`
entry per logical index; `new[]` leaves them uninitialised, so the
constructor takes their arbitrary initial contents as parameters. -/

/-- The implicit conversion to `page_index_t = uint8_t`. -/
def pageIndex (n : Nat) : Nat := n % 256

/-- Region of a page excluded from a `copyPage` transfer
(`FlashExcludeRegion`; the `end` field is called `stop` because `end` is a
Lean keyword). -/
structure FlashExcludeRegion where
  start : Nat
  stop : Nat

/-- `isExcluded(value)`: `value >= start && value < end`. -/
def FlashExcludeRegion.isExcluded (r : FlashExcludeRegion) (value : Nat) : Prop :=
  r.start ≤ value ∧ value < r.stop

instance (r : FlashExcludeRegion) (v : Nat) : Decidable (r.isExcluded v) := by
  unfold FlashExcludeRegion.isExcluded; infer_instance

/-- `TranslatingFlashDevice::eraseExcludedHandler`: bytes whose page offset
falls in the exclude region are replaced by `0xFF`. -/
def eraseExcludedHandler (region : FlashExcludeRegion) : TransferHandler :=
  fun pageOffset buf =>
    (List.range buf.length).map fun i =>
      if region.isExcluded (pageOffset + i) then 0xFF else buf.getD i 0

/-- `TranslatingFlashDevice::copyPageHandler`: the identity transfer. -/
def copyPageHandler : TransferHandler := fun _ buf => buf

structure LogicalPageMapper where
  flash : FakeFlashDevice
  logicalPageCount : Nat
  inUse : Nat → Bool
  logicalPageMap : Nat → Nat
  rnds : Nat → Nat
  rndIdx : Nat

namespace LogicalPageMapper

def headerSize : Nat := 2

def FORMAT_HEADER_SIGNATURE : Nat := 0x2FFF

/-- `maxPage() = flash.pageCount() - 1`: the housekeeping page. -/
def maxPage (m : LogicalPageMapper) : Nat := m.flash.pageCount_ - 1

/-- Client-visible page size: `flash.pageSize() - headerSize`. -/
def pageSize (m : LogicalPageMapper) : Nat := m.flash.pageSize_ - headerSize

def pageCount (m : LogicalPageMapper) : Nat := m.logicalPageCount

/-- `readHeader`: little-endian 2-byte read at the start of the physical
page; a failing `readPage` leaves the C local `header` at its initial 0. -/
def readHeader (m : LogicalPageMapper) (page : Nat) : Nat :=
  match m.flash.readPage (page * m.flash.pageSize_) headerSize with
  | some l => l.getD 0 0 + 256 * l.getD 1 0
  | none => 0

/-- `writeHeader`: little-endian 2-byte AND-only `writePage`; the boolean
result is discarded exactly as in the source. -/
def writeHeader (m : LogicalPageMapper) (page header : Nat) : LogicalPageMapper :=
  { m with flash := (m.flash.writePage [header % 256, header / 256 % 256]
      (page * m.flash.pageSize_) headerSize).1 }

/-- `isHeaderInUse`: the top two bits must be `01`. -/
def isHeaderInUse (header : Nat) : Bool := header >>> 14 == 1

/-- `logicalPageUse`: the low 14 bits, truncated to `page_index_t`. -/
def logicalPageUse (header : Nat) : Nat := pageIndex (header &&& 0x3FFF)

/-- `setPageInUse`: one bit per physical page (the byte-array bit packing
`inUse[page >> 3] / 1 << (page & 7)` is modelled as a per-page Bool). -/
def setPageInUse (m : LogicalPageMapper) (page : Nat) (used : Bool) : LogicalPageMapper :=
  { m with inUse := fun p => if p = page then used else m.inUse p }

def isPageInUse (m : LogicalPageMapper) (page : Nat) : Bool := m.inUse page

/-- `pageIsDirty`: true iff the page holds any non-`0xFF` byte.  (The
source streams the page through a 128-byte stack buffer; the same bytes are
inspected, and for the pages it is called on the reads are in range.) -/
def pageIsDirty (m : LogicalPageMapper) (page : Nat) : Bool :=
  match m.flash.readPage (page * m.flash.pageSize_) m.flash.pageSize_ with
  | some bs => bs.any (fun b => b != 0xFF)
  | none => false

/-- `erasePageIfNecessary`: erase the page if dirty, then clear its RAM bit. -/
def erasePageIfNecessary (m : LogicalPageMapper) (page : Nat) : LogicalPageMapper :=
  (if m.pageIsDirty page then
    { m with flash := (m.flash.erasePage (page * m.flash.pageSize_)).1 }
  else m).setPageInUse page false

/-- The countdown loop `for (i = max; i-- > 0;) erasePageIfNecessary(i);`:
`formatScan m n` processes pages `n-1, n-2, …, 0`. -/
def formatScan (m : LogicalPageMapper) : Nat → LogicalPageMapper
  | 0 => m
  | n + 1 => formatScan (m.erasePageIfNecessary n) n

/-- `formatIfNeeded`: if the sentinel is missing, erase every dirty page
below `maxPage` and write the sentinel (AND-only, onto whatever the header
bytes hold). -/
def formatIfNeeded (m : LogicalPageMapper) : LogicalPageMapper × Bool :=
  if m.readHeader m.maxPage ≠ FORMAT_HEADER_SIGNATURE then
    ((m.formatScan m.maxPage).writeHeader m.maxPage FORMAT_HEADER_SIGNATURE, true)
  else (m, false)

/-- `assignLogicalPage`: both parameters are `page_index_t`. -/
def assignLogicalPage (m : LogicalPageMapper) (logicalPage physicalPage : Nat) :
    LogicalPageMapper :=
  { m with logicalPageMap := fun x =>
      if x = pageIndex logicalPage then pageIndex physicalPage else m.logicalPageMap x }

/-- The initialisation loop of `buildInUseMap`: entries `0, …, n-1` of the
logical page map become `page_index_t(unallocated)`. -/
def initMapLoop (m : LogicalPageMapper) (unallocated : Nat) : Nat → LogicalPageMapper
  | 0 => m
  | n + 1 =>
    { m.initMapLoop unallocated n with logicalPageMap := (fun x =>
        if x = n then pageIndex unallocated
        else (m.initMapLoop unallocated n).logicalPageMap x) }

/-- The header scan of `buildInUseMap`, from `maxPage - 1` down to `0`:
record each RAM in-use bit from the header and, for in-use pages, assign the
logical mapping (lower physical indices are scanned later and win ties). -/
def scanLoop (m : LogicalPageMapper) : Nat → LogicalPageMapper
  | 0 => m
  | n + 1 =>
    scanLoop
      (if isHeaderInUse (m.readHeader n) then
        (m.setPageInUse n (isHeaderInUse (m.readHeader n))).assignLogicalPage
          (logicalPageUse (m.readHeader n)) n
      else m.setPageInUse n (isHeaderInUse (m.readHeader n))) n

/-- `buildInUseMap` (with `PAGE_MAPPER_PRE_ALLOCATE_PAGES = 0`, so no
pre-allocation pass). -/
def buildInUseMap (m : LogicalPageMapper) : LogicalPageMapper :=
  (m.initMapLoop m.maxPage m.logicalPageCount).scanLoop m.maxPage

/-- `randomPage()`: the next value of the pseudo-random stream (`rand()`). -/
def randomPage (m : LogicalPageMapper) : LogicalPageMapper × Nat :=
  ({ m with rndIdx := m.rndIdx + 1 }, m.rnds m.rndIdx)

/-- `nextFreePage(offset)`: linear probe `(i + offset) % maxPage` for
`i = 0, …, maxPage-1`; `page_count_t(-1)` on failure. -/
def nextFreePage (m : LogicalPageMapper) (offset : Nat) : Nat :=
  match (List.range m.maxPage).find?
      (fun i => ! m.isPageInUse ((i + offset) % m.maxPage)) with
  | some i => (i + offset) % m.maxPage
  | none => 2 ^ 32 - 1

/-- `allocateLogicalPage(page)`: probe for a free physical page from a
pseudo-random offset, mark it used, erase it unless its header is a clean
`0xFFFF`, install the mapping and write the header `page | 0x7F`. -/
def allocateLogicalPage (m : LogicalPageMapper) (page : Nat) :
    LogicalPageMapper × Nat :=
  let r := m.randomPage
  let free := r.1.nextFreePage (r.2 % r.1.maxPage)
  let m2 := r.1.setPageInUse free true
  let m3 := if m2.readHeader free ≠ 0xFFFF then
      { m2 with flash := (m2.flash.erasePage (free * m2.flash.pageSize_)).1 }
    else m2
  let m4 := { m3 with logicalPageMap := (fun x =>
      if x = page then pageIndex free else m3.logicalPageMap x) }
  (m4.writeHeader free (page ||| 0x7F), free)

/-- `fetchAllocatePage(page)`: allocate on demand when unmapped. -/
def fetchAllocatePage (m : LogicalPageMapper) (page : Nat) :
    LogicalPageMapper × Nat :=
  if m.logicalPageMap page = m.maxPage then m.allocateLogicalPage page
  else (m, m.logicalPageMap page)

/-- `physicalAddress(address, size)`: translate (allocating on demand);
`page_index_t page = address / size` truncates. -/
def physicalAddress (m : LogicalPageMapper) (address size : Nat) :
    LogicalPageMapper × Nat :=
  let r := m.fetchAllocatePage (pageIndex (address / size))
  (r.1, r.2 * m.flash.pageSize_ + address % size + headerSize)

/-- `LogicalPageMapperImpl::writePage` (single-block assumption as in the
source). -/
def writePage (m : LogicalPageMapper) (data : List Nat) (address len : Nat) :
    LogicalPageMapper × Bool :=
  let r := m.physicalAddress address m.pageSize
  let w := r.1.flash.writePage data r.2 len
  ({ r.1 with flash := w.1 }, w.2)

/-- `LogicalPageMapperImpl::readPage`: declared `const` in C++, but the
address translation allocates on demand through the `mutable` RAM state, so
the state is threaded here as well. -/
def readPage (m : LogicalPageMapper) (address len : Nat) :
    LogicalPageMapper × Option (List Nat) :=
  let r := m.physicalAddress address m.pageSize
  (r.1, r.1.flash.readPage r.2 len)

/-- `LogicalPageMapperImpl::erasePage`: unmap, erase the physical page,
clear its bit and allocate a fresh page for the logical page. -/
def erasePage (m : LogicalPageMapper) (address : Nat) : LogicalPageMapper × Bool :=
  if pageIndex (address / m.pageSize) < m.logicalPageCount then
    if m.logicalPageMap (pageIndex (address / m.pageSize)) = m.maxPage then (m, true)
    else
      let page := pageIndex (address / m.pageSize)
      let physicalPage := m.logicalPageMap page
      let m1 := { m with logicalPageMap := (fun x =>
          if x = page then pageIndex m.maxPage else m.logicalPageMap x) }
      let e := m1.flash.erasePage (physicalPage * m1.flash.pageSize_)
      let m2 := { m1 with flash := e.1 }
      if e.2 then
        (((m2.setPageInUse physicalPage false).allocateLogicalPage page).1, true)
      else (m2, false)
  else (m, false)

/-- The chunked transfer loop of `LogicalPageMapperImpl::copyPage`.  Each
iteration advances `offset` by at least one byte when `bufSize ≥ 1`, so the
callers pass `size` as fuel; a zero `bufSize` (where the C loop would spin
forever) returns early. -/
def copyLoop (m : LogicalPageMapper) (handler : TransferHandler)
    (oldBase newBase bufSize size offset : Nat) : Nat → LogicalPageMapper × Nat
  | 0 => (m, offset)
  | fuel + 1 =>
    if offset < size then
      if min bufSize (size - offset) = 0 then (m, offset)
      else
        match m.flash.readPage (oldBase + offset) (min bufSize (size - offset)) with
        | none => (m, offset)
        | some buf =>
          if (m.flash.writePage (handler offset buf) (newBase + offset)
              (min bufSize (size - offset))).2 then
            copyLoop
              { m with flash := (m.flash.writePage (handler offset buf) (newBase + offset)
                  (min bufSize (size - offset))).1 }
              handler oldBase newBase bufSize size
              (offset + min bufSize (size - offset)) fuel
          else
            ({ m with flash := (m.flash.writePage (handler offset buf) (newBase + offset)
                (min bufSize (size - offset))).1 }, offset)
    else (m, offset)

/-- `LogicalPageMapperImpl::copyPage`: allocate a fresh physical page for
the same logical page, stream the old contents through the handler into it,
then clear the RAM bit of the old physical page. -/
def copyPage (m : LogicalPageMapper) (address : Nat) (handler : TransferHandler)
    (bufSize : Nat) : LogicalPageMapper × Bool :=
  let oldPage := m.logicalPageMap (address / m.pageSize)
  let r := m.allocateLogicalPage (pageIndex (address / m.pageSize))
  let lres := copyLoop r.1 handler (oldPage * r.1.flash.pageSize_ + headerSize)
      (r.2 * r.1.flash.pageSize_ + headerSize) bufSize r.1.pageSize 0 r.1.pageSize
  (lres.1.setPageInUse oldPage false, lres.2 == r.1.pageSize)

/-- Outcome of one iteration of the chunk loop in
`TranslatingFlashDevice::writeErasePageBuf`. -/
inductive WebIterRes where
  | next (offset : Nat)
  | stop (ok : Bool)
  | refresh (offset : Nat)

/-- One iteration of the `writeErasePageBuf` chunk loop (precondition:
`offset < length` and the chunk is non-empty): write the chunk, read it
back; on a verify mismatch run the virtual `copyPage` with the
`eraseExcluded` region `{pageOffset + offset, pageOffset + offset + length}`
exactly as in the source, and request a restart at the unwritten tail. -/
def webIter (m : LogicalPageMapper) (data : List Nat)
    (flashAddress address length bufSize offset : Nat) :
    LogicalPageMapper × WebIterRes :=
  let toRead := min bufSize (length - offset)
  let w := m.flash.writePage (data.drop offset) (flashAddress + offset) toRead
  let m1 : LogicalPageMapper := { m with flash := w.1 }
  if w.2 then
    match m1.flash.readPage (flashAddress + offset) toRead with
    | none => (m1, .stop (offset == length))
    | some buf =>
      if buf == (List.range toRead).map (fun i => (data.drop offset).getD i 0) then
        (m1, .next (offset + toRead))
      else
        let cres := m1.copyPage address
          (eraseExcludedHandler
            ⟨address % m1.pageSize + offset, address % m1.pageSize + offset + length⟩)
          bufSize
        if cres.2 then (cres.1, .refresh offset)
        else (cres.1, .stop (offset == length))
  else (m1, .stop (offset == length))

/-- The chunk loop of `writeErasePageBuf`.  Each iteration advances by at
least one byte when `bufSize ≥ 1`, so callers pass `length` as fuel; a zero
chunk (where the C loop would spin) stops with failure. -/
def webLoop (m : LogicalPageMapper) (data : List Nat)
    (flashAddress address length bufSize offset : Nat) :
    Nat → LogicalPageMapper × WebIterRes
  | 0 => (m, .stop (offset == length))
  | fuel + 1 =>
    if offset < length then
      if min bufSize (length - offset) = 0 then (m, .stop false)
      else
        match m.webIter data flashAddress address length bufSize offset with
        | (m1, .next offset1) =>
          webLoop m1 data flashAddress address length bufSize offset1 fuel
        | (m1, .stop ok) => (m1, .stop ok)
        | (m1, .refresh offset1) => (m1, .refresh offset1)
    else (m, .stop (offset == length))

/-- `TranslatingFlashDevice::writeErasePageBuf` with the mapper virtuals
(`translateAddress = physicalAddress`, `copyPage` the logical reassignment):
the outer fuel bounds the self-recursion after a `copyPage` refresh, which
the C code does not bound. -/
def writeErasePageBuf (m : LogicalPageMapper) (data : List Nat)
    (address length bufSize : Nat) : Nat → LogicalPageMapper × Bool
  | 0 => (m, false)
  | fuel + 1 =>
    let r := m.physicalAddress address m.pageSize
    match r.1.webLoop data r.2 address length bufSize 0 length with
    | (m2, .next _) => (m2, false)
    | (m2, .stop ok) => (m2, ok)
    | (m2, .refresh offset) =>
      writeErasePageBuf m2 (data.drop offset) (address + offset) (length - offset)
        bufSize fuel

/-- `LogicalPageMapper::writeErasePage`: a stack buffer of
`STACK_BUFFER_SIZE` bytes. -/
def writeErasePage (m : LogicalPageMapper) (data : List Nat)
    (address length fuel : Nat) : LogicalPageMapper × Bool :=
  m.writeErasePageBuf data address length STACK_BUFFER_SIZE fuel

/-- The `LogicalPageMapper` constructor body: `formatIfNeeded()` then
`buildInUseMap()`.  `inUse0` and `map0` are the arbitrary initial contents
of the two `new[]`-allocated RAM arrays. -/
def construct (storage : FakeFlashDevice) (logicalPageCount : Nat)
    (inUse0 : Nat → Bool) (map0 : Nat → Nat) (rnds : Nat → Nat) : LogicalPageMapper :=
  ((LogicalPageMapper.mk storage logicalPageCount inUse0 map0 rnds 0).formatIfNeeded.1
    ).buildInUseMap

end LogicalPageMapper

/-- A client operation on the mapper, with the data, addresses, fuel for the
write-verify recursion, handler and buffer size it needs. -/
inductive MOp where
  | readPage (address len : Nat)
  | writePage (data : List Nat) (address len : Nat)
  | writeErasePage (data : List Nat) (address len fuel : Nat)
  | erasePage (address : Nat)
  | copyPage (address : Nat) (handler : TransferHandler) (bufSize : Nat)

/-- Run one operation, keeping the state (the returned data and status go to
the client). -/
def runOp (m : LogicalPageMapper) : MOp → LogicalPageMapper
  | .readPage a l => (m.readPage a l).1
  | .writePage d a l => (m.writePage d a l).1
  | .writeErasePage d a l fuel => (m.writeErasePage d a l fuel).1
  | .erasePage a => (m.erasePage a).1
  | .copyPage a h bs => (m.copyPage a h bs).1

def runOps (m : LogicalPageMapper) (ops : List MOp) : LogicalPageMapper :=
  ops.foldl runOp m

/-- An operation whose addresses stay inside the mapper address space
`[0, logicalPageCount × pageSize)` (as produced by the factory stack, where
`PageSpanFlashDevice` chunks client requests). -/
def ValidOp (m : LogicalPageMapper) : MOp → Prop
  | .readPage a l => a + l ≤ m.logicalPageCount * m.pageSize ∧
      a < m.logicalPageCount * m.pageSize
  | .writePage _ a l => a + l ≤ m.logicalPageCount * m.pageSize ∧
      a < m.logicalPageCount * m.pageSize
  | .writeErasePage _ a l _ => a + l ≤ m.logicalPageCount * m.pageSize ∧
      a < m.logicalPageCount * m.pageSize
  | .erasePage _ => True
  | .copyPage a _ bs => a < m.logicalPageCount * m.pageSize ∧ 1 ≤ bs

/-- The factory constraints of `createMultiPageEraseImpl` /
`createLogicalPageMapper`: `freePageCount ≥ 2` gives
`logicalPageCount + 1 ≤ maxPage`, the region has at most 256 pages, and
pages hold at least the 2-byte header. -/
def SizeOk (m : LogicalPageMapper) : Prop :=
  2 ≤ m.flash.pageSize_ ∧ m.flash.pageCount_ ≤ 256 ∧
  1 < m.logicalPageCount ∧ m.logicalPageCount + 1 ≤ m.maxPage

/-- The RAM consistency invariant of the mapper: every mapped logical page
points below `maxPage` at an in-use physical page, every in-use pool page is
pointed to by some logical page, and no two logical pages share a pool
page. -/
def PoolInv (m : LogicalPageMapper) : Prop :=
  (∀ l, l < m.logicalPageCount →
    m.logicalPageMap l = m.maxPage ∨
      (m.logicalPageMap l < m.maxPage ∧ m.inUse (m.logicalPageMap l) = true)) ∧
  (∀ p, p < m.maxPage → m.inUse p = true →
    ∃ l, l < m.logicalPageCount ∧ m.logicalPageMap l = p) ∧
  (∀ l1, l1 < m.logicalPageCount → ∀ l2, l2 < m.logicalPageCount →
    m.logicalPageMap l1 < m.maxPage → m.logicalPageMap l1 = m.logicalPageMap l2 →
    l1 = l2)

/-- The number of pool pages whose in-use bit is clear. -/
def freePoolCount (m : LogicalPageMapper) : Nat :=
  ((Finset.range m.maxPage).filter (fun p => m.inUse p = false)).card

/-! ### C1: persistence across a mount cycle -/

/-- A 4-page × 4-byte erased fake device for the persistence scenario. -/
def persistDevice : FakeFlashDevice := FakeFlashDevice.mk 4 4 fun _ => 0xFF

/-- A mapper with 2 logical pages freshly constructed over `persistDevice`
(the pseudo-random stream is constantly 0; the claim quantifies over the
stream and this instance realises it). -/
def persistMapper : LogicalPageMapper :=
  LogicalPageMapper.construct persistDevice 2 (fun _ => false) (fun _ => 0) (fun _ => 0)

/-- The state after `writeErasePage` of the byte `0xAB` at logical address 0. -/
def persistWrite : LogicalPageMapper × Bool := persistMapper.writeErasePage [0xAB] 0 1 4

/-- A second mapper constructed over the same underlying device. -/
def persistRemount : LogicalPageMapper :=
  LogicalPageMapper.construct persistWrite.1.flash 2 (fun _ => false) (fun _ => 0)
    (fun _ => 0)

/-- C1, a code bug, evaluated at the failing input: the write succeeds and
reads back through the first mapper, which maps logical page 0 to physical
page 0 whose header is `0 | 0x7F = 0x7F`; but `isHeaderInUse 0x7F = false`
(the top two bits are `00`, although the comment on the `writeHeader` call
says "bit 15 clear means in use" and the header documentation requires the
top bits `01`), so the remounted mapper scans the page as free, leaves
logical page 0 unmapped (`maxPage`), and reading the same address returns
`0xFF`, not the previously written byte.  The logical→physical mapping is
not preserved across the mount cycle. -/
theorem C1_persistence_lost :
    persistWrite.2 = true ∧
    (persistWrite.1.readPage 0 1).2 = some [0xAB] ∧
    persistWrite.1.logicalPageMap 0 = 0 ∧
    persistWrite.1.readHeader 0 = 0x7F ∧
    LogicalPageMapper.isHeaderInUse 0x7F = false ∧
    persistRemount.logicalPageMap 0 = persistRemount.maxPage ∧
    persistRemount.logicalPageMap 0 ≠ persistWrite.1.logicalPageMap 0 ∧
    (persistRemount.readPage 0 1).2 = some [0xFF] := by
  decide

/-! ### C2: the format sentinel after construction -/

namespace LogicalPageMapper

theorem initMapLoop_flash (m : LogicalPageMapper) (u : Nat) :
    ∀ n, (m.initMapLoop u n).flash = m.flash := by
  intro n
  induction n with
  | zero => rfl
  | succ n ih =>
    show (m.initMapLoop u n).flash = m.flash
    exact ih

theorem scanLoop_flash : ∀ n, ∀ (m' : LogicalPageMapper),
    (m'.scanLoop n).flash = m'.flash := by
  intro n
  induction n with
  | zero => intro m'; rfl
  | succ n ih =>
    intro m'
    unfold scanLoop
    rw [ih]
    split <;> rfl

theorem buildInUseMap_flash (m : LogicalPageMapper) :
    (m.buildInUseMap).flash = m.flash := by
  unfold buildInUseMap
  rw [scanLoop_flash _ _, initMapLoop_flash]

theorem formatScan_shape (m : LogicalPageMapper) : ∀ n,
    (m.formatScan n).flash.pageSize_ = m.flash.pageSize_ ∧
    (m.formatScan n).flash.pageCount_ = m.flash.pageCount_ := by
  intro n
  induction n generalizing m with
  | zero => exact ⟨rfl, rfl⟩
  | succ n ih =>
    unfold formatScan
    have h := ih (m.erasePageIfNecessary n)
    refine ⟨?_, ?_⟩
    · rw [h.1]
      unfold erasePageIfNecessary setPageInUse
      split <;> simp
    · rw [h.2]
      unfold erasePageIfNecessary setPageInUse
      split <;> simp

/-- The format loop only erases pages `0, …, n-1`, so bytes at or beyond
`n * pageSize` keep their values. -/
theorem formatScan_mem_high (m : LogicalPageMapper) : ∀ n a,
    n * m.flash.pageSize_ ≤ a → (m.formatScan n).flash.mem a = m.flash.mem a := by
  intro n
  induction n generalizing m with
  | zero => intro a _; rfl
  | succ n ih =>
    intro a ha
    unfold formatScan
    have hshape : (m.erasePageIfNecessary n).flash.pageSize_ = m.flash.pageSize_ := by
      unfold erasePageIfNecessary setPageInUse
      split <;> simp
    have h1 := ih (m.erasePageIfNecessary n) a (by rw [hshape]; calc
      n * m.flash.pageSize_ ≤ (n + 1) * m.flash.pageSize_ :=
        Nat.mul_le_mul_right _ (by omega)
      _ ≤ a := ha)
    rw [h1]
    unfold erasePageIfNecessary setPageInUse
    split
    case isTrue hdirty =>
      show (m.flash.erasePage (n * m.flash.pageSize_)).1.mem a = m.flash.mem a
      rw [fake_erasePage_eq m.flash (n * m.flash.pageSize_) (Nat.mul_mod_left _ _)]
      simp only
      rw [if_neg (by
        intro hc
        have : (n + 1) * m.flash.pageSize_ = n * m.flash.pageSize_ + m.flash.pageSize_ :=
          Nat.succ_mul n m.flash.pageSize_
        omega)]
    case isFalse => rfl

/-- `readHeader` in terms of the two backing bytes, for an in-range page. -/
theorem readHeader_eq (m : LogicalPageMapper) (page : Nat)
    (h : page * m.flash.pageSize_ + 2 ≤ m.flash.length) :
    m.readHeader page = m.flash.mem (page * m.flash.pageSize_) +
      256 * m.flash.mem (page * m.flash.pageSize_ + 1) := by
  unfold readHeader headerSize
  rw [fake_readPage_eq m.flash _ 2 h]
  have h2 : List.range 2 = [0, 1] := rfl
  rw [h2]
  simp

end LogicalPageMapper

/-- Splitting `&&& 0x2FFF` into the little-endian bytes: the low byte is
masked with `0xFF`, the high byte with `0x2F`. -/
theorem and_byte_split (b0 b1 : Nat) (h : b0 < 256) :
    (b0 &&& 255) + 256 * (b1 &&& 47) = (b0 + 256 * b1) &&& 0x2FFF := by
  have hsr : ∀ (u v n : Nat), (u &&& v) >>> n = (u >>> n) &&& (v >>> n) := by
    intro u v n
    apply Nat.eq_of_testBit_eq
    intro i
    simp [Nat.testBit_shiftRight, Nat.testBit_and]
  have hmask : ∀ x : Nat, x &&& 255 = x % 256 := by
    intro x
    have := Nat.and_pow_two_sub_one_eq_mod x 8
    norm_num at this
    exact this
  have hmod : (b0 + 256 * b1) % 256 = b0 := by omega
  have hdiv : (b0 + 256 * b1) / 256 = b1 := by omega
  have e1 : ((b0 + 256 * b1) &&& 0x2FFF) % 256 = b0 &&& 255 := by
    rw [← hmask ((b0 + 256 * b1) &&& 0x2FFF), Nat.and_assoc]
    rw [show (0x2FFF : Nat) &&& 255 = 255 from by decide]
    rw [hmask (b0 + 256 * b1), hmask b0]
    omega
  have e2 : ((b0 + 256 * b1) &&& 0x2FFF) / 256 = b1 &&& 47 := by
    have d1 : ((b0 + 256 * b1) &&& 0x2FFF) / 256 = ((b0 + 256 * b1) &&& 0x2FFF) >>> 8 := by
      rw [Nat.shiftRight_eq_div_pow]
    rw [d1, hsr]
    rw [show (0x2FFF : Nat) >>> 8 = 47 from by decide]
    rw [Nat.shiftRight_eq_div_pow]
    norm_num
    rw [hdiv]
  conv_rhs => rw [← Nat.mod_add_div ((b0 + 256 * b1) &&& 0x2FFF) 256, e1, e2]

/-- C2, corrected: over an arbitrary initial backing store, constructing the
mapper leaves the sentinel header equal to the old header ANDed with
`0x2FFF` — `formatIfNeeded` never erases the sentinel page itself, and
`writeHeader` goes through the AND-only `writePage`.  In particular the
sentinel reads `0x2FFF` exactly when the previous header bytes had all the
mask bits set, e.g. over an erased device. -/
theorem C2_sentinel_and (f : FakeFlashDevice) (L : Nat) (inUse0 : Nat → Bool)
    (map0 : Nat → Nat) (rnds : Nat → Nat)
    (hps : 2 ≤ f.pageSize_) (hpc : 1 ≤ f.pageCount_)
    (hb0 : f.mem ((f.pageCount_ - 1) * f.pageSize_) < 256) :
    (LogicalPageMapper.construct f L inUse0 map0 rnds).readHeader (f.pageCount_ - 1) =
      (f.mem ((f.pageCount_ - 1) * f.pageSize_) +
        256 * f.mem ((f.pageCount_ - 1) * f.pageSize_ + 1)) &&& 0x2FFF := by
  have hpage : (f.pageCount_ - 1) * f.pageSize_ + f.pageSize_ =
      f.pageCount_ * f.pageSize_ := by
    have h2 : f.pageCount_ - 1 + 1 = f.pageCount_ := by omega
    calc (f.pageCount_ - 1) * f.pageSize_ + f.pageSize_
        = (f.pageCount_ - 1 + 1) * f.pageSize_ := by rw [Nat.add_mul, Nat.one_mul]
      _ = f.pageCount_ * f.pageSize_ := by rw [h2]
  have hvalid : (f.pageCount_ - 1) * f.pageSize_ + 2 ≤ f.length := by
    unfold FakeFlashDevice.length
    omega
  set m0 : LogicalPageMapper :=
    LogicalPageMapper.mk f L inUse0 map0 rnds 0 with hm0
  have hmax : m0.maxPage = f.pageCount_ - 1 := rfl
  have hhead0 : m0.readHeader (f.pageCount_ - 1) =
      f.mem ((f.pageCount_ - 1) * f.pageSize_) +
        256 * f.mem ((f.pageCount_ - 1) * f.pageSize_ + 1) :=
    LogicalPageMapper.readHeader_eq m0 _ hvalid
  have hconstr : LogicalPageMapper.construct f L inUse0 map0 rnds =
      (m0.formatIfNeeded.1).buildInUseMap := rfl
  have hflash : ((m0.formatIfNeeded.1).buildInUseMap).flash = (m0.formatIfNeeded.1).flash :=
    LogicalPageMapper.buildInUseMap_flash _
  have hreadcongr : ∀ (x y : LogicalPageMapper) (p : Nat), x.flash = y.flash →
      x.readHeader p = y.readHeader p := by
    intro x y p hxy
    unfold LogicalPageMapper.readHeader
    rw [hxy]
  rw [hconstr, hreadcongr _ (m0.formatIfNeeded.1) _ hflash]
  unfold LogicalPageMapper.formatIfNeeded
  split
  case isFalse hsig =>
    push_neg at hsig
    rw [hmax] at hsig
    rw [show ((m0, false) : LogicalPageMapper × Bool).1 = m0 from rfl, hhead0]
    rw [← hhead0, hsig]
    decide
  case isTrue hsig =>
    show ((m0.formatScan m0.maxPage).writeHeader m0.maxPage
      LogicalPageMapper.FORMAT_HEADER_SIGNATURE).readHeader (f.pageCount_ - 1) = _
    set ws := m0.formatScan m0.maxPage with hws
    have hwsps : ws.flash.pageSize_ = f.pageSize_ := (LogicalPageMapper.formatScan_shape m0 _).1
    have hwspc : ws.flash.pageCount_ = f.pageCount_ := (LogicalPageMapper.formatScan_shape m0 _).2
    have hwslen : ws.flash.length = f.length := by
      unfold FakeFlashDevice.length
      rw [hwsps, hwspc]
    have hwsmem : ∀ a, (f.pageCount_ - 1) * f.pageSize_ ≤ a → ws.flash.mem a = f.mem a := by
      intro a ha
      exact LogicalPageMapper.formatScan_mem_high m0 _ a (by rw [hmax]; exact ha)
    -- the sentinel write ANDs the signature bytes into the old bytes
    have hwvalid : (f.pageCount_ - 1) * f.pageSize_ + 2 ≤ ws.flash.length := by
      rw [hwslen]; exact hvalid
    have hwp := fake_writePage_eq ws.flash
      [LogicalPageMapper.FORMAT_HEADER_SIGNATURE % 256,
        LogicalPageMapper.FORMAT_HEADER_SIGNATURE / 256 % 256]
      ((f.pageCount_ - 1) * f.pageSize_) 2 hwvalid
    show (LogicalPageMapper.writeHeader ws m0.maxPage
      LogicalPageMapper.FORMAT_HEADER_SIGNATURE).readHeader (f.pageCount_ - 1) = _
    unfold LogicalPageMapper.writeHeader LogicalPageMapper.headerSize
    have hfinal : ∀ (mm : LogicalPageMapper), mm.flash.pageSize_ = f.pageSize_ →
        mm.flash.length = f.length →
        mm.flash.mem ((f.pageCount_ - 1) * f.pageSize_) =
          f.mem ((f.pageCount_ - 1) * f.pageSize_) &&& 255 →
        mm.flash.mem ((f.pageCount_ - 1) * f.pageSize_ + 1) =
          f.mem ((f.pageCount_ - 1) * f.pageSize_ + 1) &&& 47 →
        mm.readHeader (f.pageCount_ - 1) =
          (f.mem ((f.pageCount_ - 1) * f.pageSize_) +
            256 * f.mem ((f.pageCount_ - 1) * f.pageSize_ + 1)) &&& 0x2FFF := by
      intro mm hmmps hmmlen hmm0 hmm1
      have := LogicalPageMapper.readHeader_eq mm (f.pageCount_ - 1) (by rw [hmmps, hmmlen]; exact hvalid)
      rw [hmmps] at this
      rw [this, hmm0, hmm1]
      exact and_byte_split _ _ hb0
    apply hfinal
    · simp [hwsps]
    · show ((ws.flash.writePage _ (m0.maxPage * ws.flash.pageSize_) 2).1).length = f.length
      unfold FakeFlashDevice.length
      simp [hwsps, hwspc]
    · show ((ws.flash.writePage _ (m0.maxPage * ws.flash.pageSize_) 2).1).mem
        ((f.pageCount_ - 1) * f.pageSize_) = _
      rw [hmax, hwsps, hwp]
      dsimp only
      rw [if_pos (by omega)]
      rw [Nat.sub_self]
      rw [hwsmem _ (le_refl _)]
      rfl
    · show ((ws.flash.writePage _ (m0.maxPage * ws.flash.pageSize_) 2).1).mem
        ((f.pageCount_ - 1) * f.pageSize_ + 1) = _
      rw [hmax, hwsps, hwp]
      dsimp only
      rw [if_pos (by omega)]
      rw [show (f.pageCount_ - 1) * f.pageSize_ + 1 - (f.pageCount_ - 1) * f.pageSize_ = 1
        from by omega]
      rw [hwsmem _ (by omega)]
      rfl

/-- Counterexample to C2 as stated: over a backing store that is all zero
bytes, the sentinel header after construction reads `0x0000`, not `0x2FFF` —
`formatIfNeeded` erases only the pages below `maxPage` and then ANDs the
signature into the un-erased sentinel bytes. -/
theorem C2_counterexample :
    ¬ ((LogicalPageMapper.construct (FakeFlashDevice.mk 4 4 fun _ => 0) 2
        (fun _ => false) (fun _ => 0) (fun _ => 0)).readHeader
      ((FakeFlashDevice.mk 4 4 fun _ => 0).pageCount_ - 1) =
        LogicalPageMapper.FORMAT_HEADER_SIGNATURE) := by
  decide

/-- Witness for `C2_sentinel_and` over an erased 4-page × 4-byte device:
the sentinel then reads `0xFFFF &&& 0x2FFF = 0x2FFF`. -/
theorem C2_sentinel_and_witness :
    ((2 : Nat) ≤ (FakeFlashDevice.mk 4 4 fun _ => 0xFF).pageSize_ ∧
      (1 : Nat) ≤ (FakeFlashDevice.mk 4 4 fun _ => 0xFF).pageCount_ ∧
      (FakeFlashDevice.mk 4 4 fun _ => 0xFF).mem
        (((FakeFlashDevice.mk 4 4 fun _ => 0xFF).pageCount_ - 1) *
          (FakeFlashDevice.mk 4 4 fun _ => 0xFF).pageSize_) < 256) ∧
    (LogicalPageMapper.construct (FakeFlashDevice.mk 4 4 fun _ => 0xFF) 2
      (fun _ => false) (fun _ => 0) (fun _ => 0)).readHeader
      ((FakeFlashDevice.mk 4 4 fun _ => 0xFF).pageCount_ - 1) =
      (0xFF + 256 * 0xFF) &&& 0x2FFF := by
  refine ⟨⟨by decide, by decide, by decide⟩, ?_⟩
  exact C2_sentinel_and (FakeFlashDevice.mk 4 4 fun _ => 0xFF) 2 (fun _ => false)
    (fun _ => 0) (fun _ => 0) (by decide) (by decide) (by decide)

/-! ### C10: readPage on an unmapped logical page allocates -/

theorem range_map_const (n c : Nat) :
    (List.range n).map (fun _ => c) = List.replicate n c := by
  induction n with
  | zero => rfl
  | succ n ih =>
    rw [List.range_succ, List.map_append, ih, List.map_singleton,
      List.replicate_succ']

namespace LogicalPageMapper

/-- The allocation path fully evaluated: when probing succeeds at `p` and
the header at `p` is not a clean `0xFFFF`, the page is marked used, erased,
mapped to the logical page and given the header `page ||| 0x7F`. -/
theorem allocateLogicalPage_eq (m : LogicalPageMapper) (page p : Nat)
    (hp : m.nextFreePage (m.rnds m.rndIdx % m.maxPage) = p)
    (hdirty : m.readHeader p ≠ 0xFFFF) :
    m.allocateLogicalPage page =
      ((LogicalPageMapper.mk
          ((m.flash.erasePage (p * m.flash.pageSize_)).1)
          m.logicalPageCount
          (fun q => if q = p then true else m.inUse q)
          (fun x => if x = page then pageIndex p else m.logicalPageMap x)
          m.rnds (m.rndIdx + 1)).writeHeader p (page ||| 0x7F), p) := by
  unfold allocateLogicalPage randomPage
  dsimp only
  have hE : ({ m with rndIdx := m.rndIdx + 1 } : LogicalPageMapper).nextFreePage
      (m.rnds m.rndIdx % ({ m with rndIdx := m.rndIdx + 1 } : LogicalPageMapper).maxPage)
      = p := hp
  rw [hE]
  split
  case isTrue h => rfl
  case isFalse h => exact absurd hdirty h

/-- After erasing page `p` and AND-writing a 2-byte header, the backing
store holds the header bytes at the page start, `0xFF` over the rest of the
page, and the old bytes elsewhere. -/
theorem writeHeader_erase_mem (A : LogicalPageMapper) (f : FakeFlashDevice)
    (p hdr : Nat) (hA : A.flash = (f.erasePage (p * f.pageSize_)).1)
    (hps : 2 ≤ f.pageSize_) (hp : p < f.pageCount_) : ∀ a,
    ((A.writeHeader p hdr).flash).mem a =
      if p * f.pageSize_ ≤ a ∧ a < p * f.pageSize_ + 2 then
        255 &&& [hdr % 256, hdr / 256 % 256].getD (a - p * f.pageSize_) 0
      else if p * f.pageSize_ ≤ a ∧ a < p * f.pageSize_ + f.pageSize_ then 255
      else f.mem a := by
  intro a
  have hmul : (p + 1) * f.pageSize_ ≤ f.pageCount_ * f.pageSize_ :=
    Nat.mul_le_mul_right _ (by omega)
  have hmul2 : (p + 1) * f.pageSize_ = p * f.pageSize_ + f.pageSize_ :=
    Nat.succ_mul _ _
  unfold writeHeader headerSize
  rw [hA]
  rw [fake_erasePage_eq f _ (Nat.mul_mod_left _ _)]
  dsimp only
  rw [fake_writePage_eq _ _ _ _ (by
    show p * f.pageSize_ + 2 ≤ FakeFlashDevice.length _
    unfold FakeFlashDevice.length
    dsimp only
    omega)]
  dsimp only
  by_cases h1 : p * f.pageSize_ ≤ a ∧ a < p * f.pageSize_ + 2
  · rw [if_pos h1, if_pos h1, if_pos (by omega)]
  · rw [if_neg h1, if_neg h1]

end LogicalPageMapper

theorem or_lt_256 (x y : Nat) (hx : x < 256) (hy : y < 256) : x ||| y < 256 := by
  have h : x ||| y < 2 ^ 8 :=
    Nat.or_lt_two_pow (by norm_num at *; omega) (by norm_num at *; omega)
  norm_num at h
  exact h

namespace LogicalPageMapper

/-- C10: `readPage` at an address whose logical page is unmapped is not
side-effect-free: before returning the erased `0xFF` bytes it allocates a
physical page for that logical page — bumping the random index, marking the
probed free page in use, erasing it (its header is not a clean `0xFFFF`),
installing the logical-to-physical mapping and writing the header
`page ||| 0x7F` — even though no write operation was issued. -/
theorem C10_read_allocates (m : LogicalPageMapper) (address len p : Nat)
    (hun : m.logicalPageMap (pageIndex (address / m.pageSize)) = m.maxPage)
    (hp : m.nextFreePage (m.rnds m.rndIdx % m.maxPage) = p)
    (hdirty : m.readHeader p ≠ 0xFFFF)
    (hplt : p < m.maxPage)
    (hpc256 : m.flash.pageCount_ ≤ 256)
    (hps : 3 ≤ m.flash.pageSize_)
    (hrange : address % m.pageSize + len ≤ m.pageSize) :
    (m.readPage address len).2 = some (List.replicate len 0xFF) ∧
    (m.readPage address len).1.logicalPageMap (pageIndex (address / m.pageSize)) = p ∧
    (m.readPage address len).1.logicalPageMap (pageIndex (address / m.pageSize)) ≠
      m.logicalPageMap (pageIndex (address / m.pageSize)) ∧
    (m.readPage address len).1.inUse p = true ∧
    (m.readPage address len).1.readHeader p = pageIndex (address / m.pageSize) ||| 0x7F ∧
    (m.readPage address len).1.rndIdx = m.rndIdx + 1 := by
  have hpc1 : p + 1 < m.flash.pageCount_ := by
    unfold maxPage at hplt
    omega
  have hps2 : 2 ≤ m.flash.pageSize_ := by omega
  have hpS : m.pageSize = m.flash.pageSize_ - 2 := rfl
  have hlen : m.flash.length = m.flash.pageCount_ * m.flash.pageSize_ := rfl
  have hmul : (p + 1) * m.flash.pageSize_ ≤ m.flash.pageCount_ * m.flash.pageSize_ :=
    Nat.mul_le_mul_right _ (by omega)
  have hmul2 : (p + 1) * m.flash.pageSize_ = p * m.flash.pageSize_ + m.flash.pageSize_ :=
    Nat.succ_mul _ _
  have halloc := allocateLogicalPage_eq m (pageIndex (address / m.pageSize)) p hp hdirty
  have hfetch : m.fetchAllocatePage (pageIndex (address / m.pageSize)) =
      m.allocateLogicalPage (pageIndex (address / m.pageSize)) := by
    unfold fetchAllocatePage
    rw [if_pos hun]
  set A : LogicalPageMapper := LogicalPageMapper.mk
      ((m.flash.erasePage (p * m.flash.pageSize_)).1)
      m.logicalPageCount
      (fun q => if q = p then true else m.inUse q)
      (fun x => if x = pageIndex (address / m.pageSize) then pageIndex p
        else m.logicalPageMap x)
      m.rnds (m.rndIdx + 1) with hA
  set hdr := pageIndex (address / m.pageSize) ||| 0x7F with hhdr
  have hstate : m.readPage address len =
      (A.writeHeader p hdr,
        (A.writeHeader p hdr).flash.readPage
          (p * m.flash.pageSize_ + address % m.pageSize + headerSize) len) := by
    show ((m.fetchAllocatePage (pageIndex (address / m.pageSize))).1,
        (m.fetchAllocatePage (pageIndex (address / m.pageSize))).1.flash.readPage
          ((m.fetchAllocatePage (pageIndex (address / m.pageSize))).2 * m.flash.pageSize_
            + address % m.pageSize + headerSize) len) = _
    rw [hfetch, halloc]
  have hWmem := writeHeader_erase_mem A m.flash p hdr rfl hps2 (by omega)
  have hWps : (A.writeHeader p hdr).flash.pageSize_ = m.flash.pageSize_ := by
    rw [hA]
    simp [writeHeader]
  have hWpc : (A.writeHeader p hdr).flash.pageCount_ = m.flash.pageCount_ := by
    rw [hA]
    simp [writeHeader]
  have hWlen : (A.writeHeader p hdr).flash.length = m.flash.length := by
    unfold FakeFlashDevice.length
    rw [hWps, hWpc]
  have hrdrange : p * m.flash.pageSize_ + address % m.pageSize + headerSize + len ≤
      (A.writeHeader p hdr).flash.length := by
    rw [hWlen, hlen]
    unfold headerSize
    omega
  have hrd : (A.writeHeader p hdr).flash.readPage
      (p * m.flash.pageSize_ + address % m.pageSize + headerSize) len =
      some (List.replicate len 0xFF) := by
    rw [fake_readPage_eq _ _ _ hrdrange]
    congr 1
    rw [← range_map_const len 0xFF]
    apply List.map_congr_left
    intro i hi
    rw [List.mem_range] at hi
    rw [hWmem]
    rw [if_neg (by unfold headerSize; omega), if_pos (by unfold headerSize; omega)]
  have hres : (m.readPage address len).2 = some (List.replicate len 0xFF) := by
    rw [hstate]
    exact hrd
  have hmap : (m.readPage address len).1.logicalPageMap
      (pageIndex (address / m.pageSize)) = pageIndex p := by
    rw [hstate]
    show A.logicalPageMap (pageIndex (address / m.pageSize)) = pageIndex p
    rw [hA]
    dsimp only
    rw [if_pos rfl]
  have hpidx : pageIndex p = p := by
    unfold pageIndex
    omega
  have hneq : (m.readPage address len).1.logicalPageMap
      (pageIndex (address / m.pageSize)) ≠
      m.logicalPageMap (pageIndex (address / m.pageSize)) := by
    rw [hmap, hpidx, hun]
    unfold maxPage
    omega
  have huse : (m.readPage address len).1.inUse p = true := by
    rw [hstate]
    show A.inUse p = true
    rw [hA]
    dsimp only
    rw [if_pos rfl]
  have hpi256 : pageIndex (address / m.pageSize) < 256 := by
    unfold pageIndex
    omega
  have hhd256 : hdr < 256 := by
    rw [hhdr]
    exact or_lt_256 _ _ hpi256 (by omega)
  have hhead : (m.readPage address len).1.readHeader p = hdr := by
    rw [hstate]
    show (A.writeHeader p hdr).readHeader p = hdr
    unfold readHeader
    rw [hWps]
    rw [fake_readPage_eq _ _ _ (by rw [hWlen, hlen]; unfold headerSize; omega)]
    show (A.writeHeader p hdr).flash.mem (p * m.flash.pageSize_ + 0) +
      256 * (A.writeHeader p hdr).flash.mem (p * m.flash.pageSize_ + 1) = hdr
    rw [hWmem (p * m.flash.pageSize_ + 0), hWmem (p * m.flash.pageSize_ + 1)]
    rw [if_pos (by omega), if_pos (by omega)]
    rw [show p * m.flash.pageSize_ + 0 - p * m.flash.pageSize_ = 0 from by omega]
    rw [show p * m.flash.pageSize_ + 1 - p * m.flash.pageSize_ = 1 from by omega]
    rw [show ([hdr % 256, hdr / 256 % 256].getD 0 0) = hdr % 256 from rfl]
    rw [show ([hdr % 256, hdr / 256 % 256].getD 1 0) = hdr / 256 % 256 from rfl]
    rw [and255_eq (hdr % 256) (by omega), and255_eq (hdr / 256 % 256) (by omega)]
    omega
  have hrnd : (m.readPage address len).1.rndIdx = m.rndIdx + 1 := by
    rw [hstate]
    show A.rndIdx = m.rndIdx + 1
    rw [hA]
  exact ⟨hres, hmap.trans hpidx, hneq, huse, hhead, hrnd⟩

/-- Witness for `C10_read_allocates`: the remounted mapper of the
persistence scenario has logical page 0 unmapped; reading one byte from
address 0 allocates physical page 0 and returns `0xFF`. -/
theorem C10_read_allocates_witness :
    (persistRemount.logicalPageMap (pageIndex (0 / persistRemount.pageSize)) =
        persistRemount.maxPage ∧
      persistRemount.nextFreePage (persistRemount.rnds persistRemount.rndIdx %
        persistRemount.maxPage) = 0 ∧
      persistRemount.readHeader 0 ≠ 0xFFFF ∧
      0 < persistRemount.maxPage ∧
      persistRemount.flash.pageCount_ ≤ 256 ∧
      3 ≤ persistRemount.flash.pageSize_ ∧
      0 % persistRemount.pageSize + 1 ≤ persistRemount.pageSize) ∧
    ((persistRemount.readPage 0 1).2 = some (List.replicate 1 0xFF) ∧
      (persistRemount.readPage 0 1).1.logicalPageMap
        (pageIndex (0 / persistRemount.pageSize)) = 0 ∧
      (persistRemount.readPage 0 1).1.logicalPageMap
        (pageIndex (0 / persistRemount.pageSize)) ≠
        persistRemount.logicalPageMap (pageIndex (0 / persistRemount.pageSize)) ∧
      (persistRemount.readPage 0 1).1.inUse 0 = true ∧
      (persistRemount.readPage 0 1).1.readHeader 0 =
        pageIndex (0 / persistRemount.pageSize) ||| 0x7F ∧
      (persistRemount.readPage 0 1).1.rndIdx = persistRemount.rndIdx + 1) :=
  ⟨⟨by decide, by decide, by decide, by decide, by decide, by decide, by decide⟩,
    C10_read_allocates persistRemount 0 1 0 (by decide) (by decide) (by decide)
      (by decide) (by decide) (by decide) (by decide)⟩

end LogicalPageMapper

/-! ### C5: the free pool after a sequence of operations -/

namespace LogicalPageMapper

/-- Arithmetic of the circular probe: the index
`(p + M - offset % M) % M` probes exactly page `p`. -/
theorem mod_probe (p o M : Nat) (hpM : p < M) :
    ((p + M - o % M) % M + o) % M = p := by
  have hM : 0 < M := by omega
  rw [Nat.mod_add_mod]
  have hr : o % M < M := Nat.mod_lt _ hM
  have hdm : M * (o / M) + o % M = o := Nat.div_add_mod o M
  have hmm : M * (o / M + 1) = M * (o / M) + M := by ring
  have he : p + M - o % M + o = p + M * (o / M + 1) := by omega
  rw [he, Nat.add_mul_mod_self_left, Nat.mod_eq_of_lt hpM]

/-- When some pool page is free, `nextFreePage` returns a free pool page
(for any probe offset). -/
theorem nextFreePage_free (m : LogicalPageMapper) (offset : Nat)
    (hM : 0 < m.maxPage)
    (hfree : ∃ p, p < m.maxPage ∧ m.inUse p = false) :
    m.nextFreePage offset < m.maxPage ∧ m.inUse (m.nextFreePage offset) = false := by
  unfold nextFreePage
  cases hfind : (List.range m.maxPage).find?
      (fun i => ! m.isPageInUse ((i + offset) % m.maxPage)) with
  | some i =>
    have hpred := List.find?_some hfind
    refine ⟨Nat.mod_lt _ hM, ?_⟩
    unfold isPageInUse at hpred
    simpa using hpred
  | none =>
    exfalso
    obtain ⟨p, hp, hpfree⟩ := hfree
    have hnone := List.find?_eq_none.mp hfind
    have hmem : ((p + m.maxPage - offset % m.maxPage) % m.maxPage) ∈
        List.range m.maxPage := by
      rw [List.mem_range]
      exact Nat.mod_lt _ hM
    apply hnone _ hmem
    show (! m.isPageInUse
      (((p + m.maxPage - offset % m.maxPage) % m.maxPage + offset) % m.maxPage)) = true
    rw [mod_probe p offset m.maxPage hp]
    unfold isPageInUse
    rw [hpfree]
    rfl

/-- From the pool invariant and the size constraints, some pool page is
free: the in-use pool pages inject into the logical pages, and there are
fewer logical pages than pool pages. -/
theorem exists_free (m : LogicalPageMapper) (hinv : PoolInv m) (hsz : SizeOk m) :
    ∃ p, p < m.maxPage ∧ m.inUse p = false := by
  by_contra hc
  push_neg at hc
  have hall : ∀ p, p < m.maxPage → m.inUse p = true := by
    intro p hp
    cases h : m.inUse p
    · exact absurd h (hc p hp)
    · rfl
  set f : Nat → Nat := fun q =>
    if hq : q < m.maxPage ∧ m.inUse q = true then
      Classical.choose (hinv.2.1 q hq.1 hq.2)
    else 0 with hf
  have hspec : ∀ q, q < m.maxPage →
      f q < m.logicalPageCount ∧ m.logicalPageMap (f q) = q := by
    intro q hq
    have hq2 : q < m.maxPage ∧ m.inUse q = true := ⟨hq, hall q hq⟩
    rw [hf]
    dsimp only
    rw [dif_pos hq2]
    exact ⟨(Classical.choose_spec (hinv.2.1 q hq2.1 hq2.2)).1,
      (Classical.choose_spec (hinv.2.1 q hq2.1 hq2.2)).2⟩
  have hcard : m.maxPage ≤ m.logicalPageCount := by
    have hle := Finset.card_le_card_of_injOn f
      (fun q hq => by
        rw [Finset.mem_range] at hq
        rw [Finset.mem_range]
        exact (hspec q hq).1)
      (fun q1 hq1 q2 hq2 he => by
        rw [Finset.mem_coe, Finset.mem_range] at hq1 hq2
        have h1 := (hspec q1 hq1).2
        have h2 := (hspec q2 hq2).2
        rw [← h1, ← h2, he])
    simpa using hle
  have := hsz.2.2.2
  omega

/-- The pool invariant with the factory size constraints keeps at least one
pool page free. -/
theorem freePool_pos (m : LogicalPageMapper) (hinv : PoolInv m) (hsz : SizeOk m) :
    1 ≤ freePoolCount m := by
  obtain ⟨p, hp, hfree⟩ := exists_free m hinv hsz
  unfold freePoolCount
  have hmem : p ∈ (Finset.range m.maxPage).filter (fun q => m.inUse q = false) := by
    rw [Finset.mem_filter, Finset.mem_range]
    exact ⟨hp, hfree⟩
  exact Finset.card_pos.mpr ⟨p, hmem⟩

end LogicalPageMapper

/-- The fields of the mapper that no operation changes: the flash geometry
and the logical page count. -/
def SameShape (m m' : LogicalPageMapper) : Prop :=
  m'.flash.pageSize_ = m.flash.pageSize_ ∧
  m'.flash.pageCount_ = m.flash.pageCount_ ∧
  m'.logicalPageCount = m.logicalPageCount

theorem shape_refl (m : LogicalPageMapper) : SameShape m m := ⟨rfl, rfl, rfl⟩

theorem shape_trans {m1 m2 m3 : LogicalPageMapper}
    (h : SameShape m1 m2) (h2 : SameShape m2 m3) : SameShape m1 m3 :=
  ⟨h2.1.trans h.1, h2.2.1.trans h.2.1, h2.2.2.trans h.2.2⟩

theorem shape_maxPage {m m' : LogicalPageMapper} (h : SameShape m m') :
    m'.maxPage = m.maxPage := by
  unfold LogicalPageMapper.maxPage
  rw [h.2.1]

theorem shape_pageSize {m m' : LogicalPageMapper} (h : SameShape m m') :
    m'.pageSize = m.pageSize := by
  unfold LogicalPageMapper.pageSize
  rw [h.1]

/-- The pool invariant only reads the RAM fields and the page count. -/
theorem PoolInv_congr {m m' : LogicalPageMapper}
    (hpc : m'.flash.pageCount_ = m.flash.pageCount_)
    (hL : m'.logicalPageCount = m.logicalPageCount)
    (hu : m'.inUse = m.inUse) (hm : m'.logicalPageMap = m.logicalPageMap)
    (hinv : PoolInv m) : PoolInv m' := by
  have hmax : m'.maxPage = m.maxPage := by
    unfold LogicalPageMapper.maxPage
    rw [hpc]
  obtain ⟨h1, h2, h3⟩ := hinv
  refine ⟨?_, ?_, ?_⟩
  · intro l hl
    rw [hL] at hl
    rw [hmax, hm, hu]
    exact h1 l hl
  · intro q hq hq2
    rw [hmax] at hq
    rw [hu] at hq2
    rw [hL, hm]
    exact h2 q hq hq2
  · intro l1 hl1 l2 hl2 hlt he
    rw [hL] at hl1 hl2
    rw [hm, hmax] at hlt
    rw [hm] at he
    exact h3 l1 hl1 l2 hl2 hlt he

theorem SizeOk_congr {m m' : LogicalPageMapper}
    (h : SameShape m m') (hsz : SizeOk m) : SizeOk m' := by
  obtain ⟨a, b, c, d⟩ := hsz
  exact ⟨by rw [h.1]; exact a, by rw [h.2.1]; exact b,
    by rw [h.2.2]; exact c, by rw [h.2.2, shape_maxPage h]; exact d⟩

theorem ValidOp_congr {m m' : LogicalPageMapper}
    (h : SameShape m m') {op : MOp} (hv : ValidOp m op) : ValidOp m' op := by
  cases op <;> unfold ValidOp at hv ⊢ <;>
    rw [h.2.2, shape_pageSize h] <;> exact hv

namespace LogicalPageMapper

/-- The RAM fields and flash geometry after `allocateLogicalPage`: the
returned page is the probe result, its in-use bit is set and the mapping is
installed; the flash geometry is unchanged. -/
theorem allocate_fields (m : LogicalPageMapper) (pg : Nat) :
    (m.allocateLogicalPage pg).2 = m.nextFreePage (m.rnds m.rndIdx % m.maxPage) ∧
    (m.allocateLogicalPage pg).1.logicalPageCount = m.logicalPageCount ∧
    (m.allocateLogicalPage pg).1.flash.pageSize_ = m.flash.pageSize_ ∧
    (m.allocateLogicalPage pg).1.flash.pageCount_ = m.flash.pageCount_ ∧
    (m.allocateLogicalPage pg).1.inUse = (fun q =>
      if q = m.nextFreePage (m.rnds m.rndIdx % m.maxPage) then true else m.inUse q) ∧
    (m.allocateLogicalPage pg).1.logicalPageMap = (fun x =>
      if x = pg then pageIndex (m.nextFreePage (m.rnds m.rndIdx % m.maxPage))
      else m.logicalPageMap x) := by
  unfold allocateLogicalPage randomPage setPageInUse writeHeader
  dsimp only
  refine ⟨rfl, ?_, ?_, ?_, ?_, ?_⟩
  · split <;> simp
  · split <;> simp
  · split <;> simp
  · split <;> rfl
  · split <;> rfl

theorem allocate_shape (m : LogicalPageMapper) (pg : Nat) :
    SameShape m (m.allocateLogicalPage pg).1 :=
  ⟨(allocate_fields m pg).2.2.1, (allocate_fields m pg).2.2.2.1,
    (allocate_fields m pg).2.1⟩

/-- Allocating for an unmapped logical page keeps the pool invariant and
the size constraints, and the allocated page is a pool page. -/
theorem PoolInv_allocate (m : LogicalPageMapper) (pg : Nat)
    (hinv : PoolInv m) (hsz : SizeOk m)
    (hpg : pg < m.logicalPageCount)
    (hun : m.logicalPageMap pg = m.maxPage) :
    PoolInv (m.allocateLogicalPage pg).1 ∧ SizeOk (m.allocateLogicalPage pg).1 := by
  obtain ⟨h2ps, hpc256, hL1, hLmax⟩ := hsz
  have hM : 0 < m.maxPage := by omega
  obtain ⟨hplt, hpfree⟩ := nextFreePage_free m (m.rnds m.rndIdx % m.maxPage) hM
    (exists_free m hinv ⟨h2ps, hpc256, hL1, hLmax⟩)
  obtain ⟨hf2, hfLC, hfps, hfpc, hfuse, hfmap⟩ := allocate_fields m pg
  have hmaxeq : (m.allocateLogicalPage pg).1.maxPage = m.maxPage := by
    unfold maxPage
    rw [hfpc]
  have hmax255 : m.maxPage < 256 := by
    unfold maxPage at *
    omega
  have hpidx : pageIndex (m.nextFreePage (m.rnds m.rndIdx % m.maxPage)) =
      m.nextFreePage (m.rnds m.rndIdx % m.maxPage) := by
    unfold pageIndex
    omega
  obtain ⟨h1, h2, h3⟩ := hinv
  refine ⟨⟨?_, ?_, ?_⟩, ?_⟩
  · intro l hl
    rw [hfLC] at hl
    rw [hmaxeq, hfmap, hfuse]
    dsimp only
    by_cases hlp : l = pg
    · rw [if_pos hlp, hpidx]
      right
      exact ⟨hplt, by rw [if_pos rfl]⟩
    · rw [if_neg hlp]
      rcases h1 l hl with hcase | ⟨hlt, huse⟩
      · left
        exact hcase
      · right
        refine ⟨hlt, ?_⟩
        have hne : m.logicalPageMap l ≠ m.nextFreePage (m.rnds m.rndIdx % m.maxPage) := by
          intro he
          rw [he, hpfree] at huse
          cases huse
        rw [if_neg hne]
        exact huse
  · intro q hq hq2
    rw [hmaxeq] at hq
    rw [hfuse] at hq2
    dsimp only at hq2
    rw [hfLC, hfmap]
    by_cases hqp : q = m.nextFreePage (m.rnds m.rndIdx % m.maxPage)
    · refine ⟨pg, hpg, ?_⟩
      dsimp only
      rw [if_pos rfl, hpidx, hqp]
    · rw [if_neg hqp] at hq2
      obtain ⟨l, hl, hml⟩ := h2 q hq hq2
      refine ⟨l, hl, ?_⟩
      dsimp only
      have hlpg : l ≠ pg := by
        intro he
        rw [he, hun] at hml
        omega
      rw [if_neg hlpg]
      exact hml
  · intro l1 hl1 l2 hl2 hlt he
    rw [hfLC] at hl1 hl2
    rw [hfmap, hmaxeq] at hlt
    rw [hfmap] at he
    dsimp only at hlt he
    by_cases h1p : l1 = pg <;> by_cases h2p : l2 = pg
    · rw [h1p, h2p]
    · exfalso
      rw [if_pos h1p, if_neg h2p, hpidx] at he
      have := h1 l2 hl2
      rw [← he] at this
      rcases this with hcase | ⟨_, huse⟩
      · omega
      · rw [hpfree] at huse
        cases huse
    · exfalso
      rw [if_neg h1p, if_pos h2p, hpidx] at he
      have := h1 l1 hl1
      rw [he] at this
      rcases this with hcase | ⟨_, huse⟩
      · omega
      · rw [hpfree] at huse
        cases huse
    · rw [if_neg h1p] at hlt he
      rw [if_neg h2p] at he
      exact h3 l1 hl1 l2 hl2 hlt he
  · exact SizeOk_congr (allocate_shape m pg) ⟨h2ps, hpc256, hL1, hLmax⟩

/-- `fetchAllocatePage` keeps the pool invariant and size constraints for
any in-range logical page. -/
theorem PoolInv_fetch (m : LogicalPageMapper) (pg : Nat)
    (hinv : PoolInv m) (hsz : SizeOk m) (hpg : pg < m.logicalPageCount) :
    PoolInv (m.fetchAllocatePage pg).1 ∧ SizeOk (m.fetchAllocatePage pg).1 := by
  unfold fetchAllocatePage
  by_cases hc : m.logicalPageMap pg = m.maxPage
  · rw [if_pos hc]
    exact PoolInv_allocate m pg hinv hsz hpg hc
  · rw [if_neg hc]
    exact ⟨hinv, hsz⟩

theorem fetch_shape (m : LogicalPageMapper) (pg : Nat) :
    SameShape m (m.fetchAllocatePage pg).1 := by
  unfold fetchAllocatePage
  split
  · exact allocate_shape m pg
  · exact shape_refl m

/-- The chunked page copy only writes to flash: the RAM fields and the
flash geometry are untouched. -/
theorem copyLoop_ram (handler : TransferHandler) (oldBase newBase bufSize size : Nat) :
    ∀ fuel offset (m : LogicalPageMapper),
    (copyLoop m handler oldBase newBase bufSize size offset fuel).1.inUse = m.inUse ∧
    (copyLoop m handler oldBase newBase bufSize size offset fuel).1.logicalPageMap =
      m.logicalPageMap ∧
    (copyLoop m handler oldBase newBase bufSize size offset fuel).1.logicalPageCount =
      m.logicalPageCount ∧
    (copyLoop m handler oldBase newBase bufSize size offset fuel).1.flash.pageSize_ =
      m.flash.pageSize_ ∧
    (copyLoop m handler oldBase newBase bufSize size offset fuel).1.flash.pageCount_ =
      m.flash.pageCount_ := by
  intro fuel
  induction fuel with
  | zero => intro offset m; exact ⟨rfl, rfl, rfl, rfl, rfl⟩
  | succ fuel ih =>
    intro offset m
    unfold copyLoop
    split
    · split
      · exact ⟨rfl, rfl, rfl, rfl, rfl⟩
      · split
        · exact ⟨rfl, rfl, rfl, rfl, rfl⟩
        · split
          · exact ⟨(ih _ _).1, (ih _ _).2.1, (ih _ _).2.2.1,
              (ih _ _).2.2.2.1.trans (writePage_pageSize _ _ _ _),
              (ih _ _).2.2.2.2.trans (writePage_pageCount _ _ _ _)⟩
          · exact ⟨rfl, rfl, rfl, writePage_pageSize _ _ _ _,
              writePage_pageCount _ _ _ _⟩
    · exact ⟨rfl, rfl, rfl, rfl, rfl⟩

/-- The pool invariant transfers along pointwise agreement on the pool
pages and the logical page entries. -/
theorem PoolInv_congr2 {m m' : LogicalPageMapper}
    (hmax : m'.maxPage = m.maxPage)
    (hL : m'.logicalPageCount = m.logicalPageCount)
    (hu : ∀ q, q < m.maxPage → m'.inUse q = m.inUse q)
    (hm : ∀ l, l < m.logicalPageCount → m'.logicalPageMap l = m.logicalPageMap l)
    (hinv : PoolInv m) : PoolInv m' := by
  obtain ⟨h1, h2, h3⟩ := hinv
  refine ⟨?_, ?_, ?_⟩
  · intro l hl
    rw [hL] at hl
    rw [hmax, hm l hl]
    rcases h1 l hl with hc | ⟨hlt, huse⟩
    · left
      exact hc
    · right
      exact ⟨hlt, by rw [hu _ hlt]; exact huse⟩
  · intro q hq hq2
    rw [hmax] at hq
    rw [hu q hq] at hq2
    obtain ⟨l, hl, hml⟩ := h2 q hq hq2
    refine ⟨l, by rw [hL]; exact hl, by rw [hm l hl]; exact hml⟩
  · intro l1 hl1 l2 hl2 hlt he
    rw [hL] at hl1 hl2
    rw [hmax, hm l1 hl1] at hlt
    rw [hm l1 hl1, hm l2 hl2] at he
    exact h3 l1 hl1 l2 hl2 hlt he

/-- The RAM effect of `copyPage` — allocate a fresh page for logical page
`pg`, then clear the bit of the old physical page — keeps the pool
invariant, whether `pg` was mapped or not. -/
theorem PoolInv_alloc_clear (m : LogicalPageMapper) (pg : Nat)
    (X : LogicalPageMapper)
    (hinv : PoolInv m) (hsz : SizeOk m) (hpg : pg < m.logicalPageCount)
    (hXu : X.inUse = (fun q =>
      if q = m.nextFreePage (m.rnds m.rndIdx % m.maxPage) then true else m.inUse q))
    (hXm : X.logicalPageMap = (fun x =>
      if x = pg then pageIndex (m.nextFreePage (m.rnds m.rndIdx % m.maxPage))
      else m.logicalPageMap x))
    (hXL : X.logicalPageCount = m.logicalPageCount)
    (hXps : X.flash.pageSize_ = m.flash.pageSize_)
    (hXpc : X.flash.pageCount_ = m.flash.pageCount_) :
    PoolInv (X.setPageInUse (m.logicalPageMap pg) false) ∧
    SizeOk (X.setPageInUse (m.logicalPageMap pg) false) := by
  obtain ⟨h2ps, hpc256, hL1, hLmax⟩ := hsz
  have hM : 0 < m.maxPage := by omega
  obtain ⟨hplt, hpfree⟩ := nextFreePage_free m (m.rnds m.rndIdx % m.maxPage) hM
    (exists_free m hinv ⟨h2ps, hpc256, hL1, hLmax⟩)
  have hmax255 : m.maxPage < 256 := by
    unfold maxPage at *
    omega
  have hpidx : pageIndex (m.nextFreePage (m.rnds m.rndIdx % m.maxPage)) =
      m.nextFreePage (m.rnds m.rndIdx % m.maxPage) := by
    unfold pageIndex
    omega
  have hYmax : (X.setPageInUse (m.logicalPageMap pg) false).maxPage = m.maxPage := by
    unfold maxPage setPageInUse
    dsimp only
    rw [hXpc]
  have hYu : ∀ q, (X.setPageInUse (m.logicalPageMap pg) false).inUse q =
      if q = m.logicalPageMap pg then false else X.inUse q := fun _ => rfl
  have hYm : (X.setPageInUse (m.logicalPageMap pg) false).logicalPageMap =
      X.logicalPageMap := rfl
  have hYL : (X.setPageInUse (m.logicalPageMap pg) false).logicalPageCount =
      m.logicalPageCount := hXL
  have hYsz : SizeOk (X.setPageInUse (m.logicalPageMap pg) false) :=
    ⟨by unfold setPageInUse; dsimp only; rw [hXps]; exact h2ps,
     by unfold setPageInUse; dsimp only; rw [hXpc]; exact hpc256,
     by rw [hYL]; exact hL1,
     by rw [hYL, hYmax]; exact hLmax⟩
  obtain ⟨h1, h2, h3⟩ := hinv
  by_cases hc : m.logicalPageMap pg = m.maxPage
  · -- the logical page was unmapped: the cleared bit is the housekeeping
    -- page, outside the pool, so this is the plain allocation case.
    refine ⟨?_, hYsz⟩
    have halloc := PoolInv_allocate m pg ⟨h1, h2, h3⟩ ⟨h2ps, hpc256, hL1, hLmax⟩ hpg hc
    obtain ⟨hf2, hfLC, hfps, hfpc, hfuse, hfmap⟩ := allocate_fields m pg
    refine PoolInv_congr2 ?_ ?_ ?_ ?_ halloc.1
    · rw [hYmax]
      unfold maxPage
      rw [hfpc]
    · rw [hYL, hfLC]
    · intro q hq
      have hmaxa : (m.allocateLogicalPage pg).1.maxPage = m.maxPage := by
        unfold maxPage
        rw [hfpc]
      rw [hmaxa] at hq
      rw [hYu, hXu, hfuse]
      dsimp only
      rw [if_neg (by rw [hc]; omega)]
    · intro l hl
      rw [hfLC] at hl
      rw [hYm, hXm, hfmap]
  · -- the logical page was mapped: new page in, old page out.
    have hold := (h1 pg hpg).resolve_left hc
    obtain ⟨holdlt, holduse⟩ := hold
    have holdne : m.logicalPageMap pg ≠ m.nextFreePage (m.rnds m.rndIdx % m.maxPage) := by
      intro he
      rw [he, hpfree] at holduse
      cases holduse
    refine ⟨⟨?_, ?_, ?_⟩, hYsz⟩
    · intro l hl
      rw [hYL] at hl
      rw [hYmax, hYm, hXm]
      dsimp only
      by_cases hlp : l = pg
      · rw [if_pos hlp, hpidx]
        right
        refine ⟨hplt, ?_⟩
        rw [hYu, if_neg (fun he => holdne he.symm), hXu]
        dsimp only
        rw [if_pos rfl]
      · rw [if_neg hlp]
        rcases h1 l hl with hcs | ⟨hlt, huse⟩
        · left
          exact hcs
        · right
          refine ⟨hlt, ?_⟩
          have hne1 : m.logicalPageMap l ≠ m.logicalPageMap pg := by
            intro he
            exact hlp (h3 l hl pg hpg hlt he)
          have hne2 : m.logicalPageMap l ≠
              m.nextFreePage (m.rnds m.rndIdx % m.maxPage) := by
            intro he
            rw [he, hpfree] at huse
            cases huse
          rw [hYu, if_neg hne1, hXu]
          dsimp only
          rw [if_neg hne2]
          exact huse
    · intro q hq hq2
      rw [hYmax] at hq
      rw [hYu] at hq2
      by_cases hqold : q = m.logicalPageMap pg
      · rw [if_pos hqold] at hq2
        cases hq2
      · rw [if_neg hqold, hXu] at hq2
        dsimp only at hq2
        rw [hYL, hYm, hXm]
        by_cases hqp : q = m.nextFreePage (m.rnds m.rndIdx % m.maxPage)
        · refine ⟨pg, hpg, ?_⟩
          dsimp only
          rw [if_pos rfl, hpidx, hqp]
        · rw [if_neg hqp] at hq2
          obtain ⟨l, hl, hml⟩ := h2 q hq hq2
          refine ⟨l, hl, ?_⟩
          dsimp only
          have hlpg : l ≠ pg := by
            intro he
            rw [he] at hml
            exact hqold hml.symm
          rw [if_neg hlpg]
          exact hml
    · intro l1 hl1 l2 hl2 hlt he
      rw [hYL] at hl1 hl2
      rw [hYmax, hYm, hXm] at hlt
      rw [hYm, hXm] at he
      dsimp only at hlt he
      by_cases h1p : l1 = pg <;> by_cases h2p : l2 = pg
      · rw [h1p, h2p]
      · exfalso
        rw [if_pos h1p, if_neg h2p, hpidx] at he
        rcases h1 l2 hl2 with hcs | ⟨_, huse⟩
        · rw [hcs] at he
          omega
        · rw [← he, hpfree] at huse
          cases huse
      · exfalso
        rw [if_neg h1p, if_pos h2p, hpidx] at he
        rcases h1 l1 hl1 with hcs | ⟨_, huse⟩
        · rw [hcs] at he
          omega
        · rw [he, hpfree] at huse
          cases huse
      · rw [if_neg h1p] at hlt he
        rw [if_neg h2p] at he
        exact h3 l1 hl1 l2 hl2 hlt he

/-- `copyPage` keeps the pool invariant and the size constraints for any
in-range address. -/
theorem PoolInv_copyPage (m : LogicalPageMapper) (address : Nat)
    (handler : TransferHandler) (bufSize : Nat)
    (hinv : PoolInv m) (hsz : SizeOk m)
    (haddr : address < m.logicalPageCount * m.pageSize) :
    PoolInv (m.copyPage address handler bufSize).1 ∧
    SizeOk (m.copyPage address handler bufSize).1 := by
  have hpS : 0 < m.pageSize := by
    rcases Nat.eq_zero_or_pos m.pageSize with h | h
    · rw [h, Nat.mul_zero] at haddr
      omega
    · exact h
  have hdivlt : address / m.pageSize < m.logicalPageCount :=
    Nat.div_lt_of_lt_mul (by rw [Nat.mul_comm] at haddr; exact haddr)
  have hL255 : m.logicalPageCount < 256 := by
    obtain ⟨_, hpc256, _, hLmax⟩ := hsz
    unfold maxPage at hLmax
    omega
  have hpgidx : pageIndex (address / m.pageSize) = address / m.pageSize := by
    unfold pageIndex
    exact Nat.mod_eq_of_lt (by omega)
  unfold copyPage
  dsimp only
  apply PoolInv_alloc_clear m (address / m.pageSize) _ hinv hsz hdivlt
  · exact ((copyLoop_ram _ _ _ _ _ _ _ _).1).trans (allocate_fields m _).2.2.2.2.1
  · exact ((copyLoop_ram _ _ _ _ _ _ _ _).2.1).trans
      ((allocate_fields m _).2.2.2.2.2.trans (by rw [hpgidx]))
  · exact ((copyLoop_ram _ _ _ _ _ _ _ _).2.2.1).trans (allocate_fields m _).2.1
  · exact ((copyLoop_ram _ _ _ _ _ _ _ _).2.2.2.1).trans (allocate_fields m _).2.2.1
  · exact ((copyLoop_ram _ _ _ _ _ _ _ _).2.2.2.2).trans (allocate_fields m _).2.2.2.1

theorem copyPage_shape (m : LogicalPageMapper) (address : Nat)
    (handler : TransferHandler) (bufSize : Nat) :
    SameShape m (m.copyPage address handler bufSize).1 := by
  unfold copyPage
  dsimp only
  exact ⟨((copyLoop_ram _ _ _ _ _ _ _ _).2.2.2.1).trans (allocate_fields m _).2.2.1,
    ((copyLoop_ram _ _ _ _ _ _ _ _).2.2.2.2).trans (allocate_fields m _).2.2.2.1,
    ((copyLoop_ram _ _ _ _ _ _ _ _).2.2.1).trans (allocate_fields m _).2.1⟩

/-- `LogicalPageMapperImpl::erasePage` keeps the pool invariant and the
size constraints: it unmaps the logical page, erases the physical page,
clears its bit and allocates a fresh page. -/
theorem PoolInv_erasePage (m : LogicalPageMapper) (address : Nat)
    (hinv : PoolInv m) (hsz : SizeOk m) :
    PoolInv (m.erasePage address).1 ∧ SizeOk (m.erasePage address).1 := by
  obtain ⟨h2ps, hpc256, hL1, hLmax⟩ := hsz
  by_cases hg : pageIndex (address / m.pageSize) < m.logicalPageCount
  case neg =>
    unfold erasePage
    rw [if_neg hg]
    exact ⟨hinv, ⟨h2ps, hpc256, hL1, hLmax⟩⟩
  case pos =>
  by_cases hc : m.logicalPageMap (pageIndex (address / m.pageSize)) = m.maxPage
  case pos =>
    unfold erasePage
    rw [if_pos hg, if_pos hc]
    exact ⟨hinv, ⟨h2ps, hpc256, hL1, hLmax⟩⟩
  case neg =>
  have hmax255 : m.maxPage < 256 := by
    unfold maxPage at *
    omega
  have hpidxmax : pageIndex m.maxPage = m.maxPage := by
    unfold pageIndex
    omega
  obtain ⟨hpplt, hppuse⟩ := ((hinv.1 _ hg).resolve_left hc)
  have hstate : m.erasePage address =
      (((LogicalPageMapper.mk
          ({ m.flash with mem := fun a =>
              if m.logicalPageMap (pageIndex (address / m.pageSize)) * m.flash.pageSize_ ≤ a ∧
                a < m.logicalPageMap (pageIndex (address / m.pageSize)) * m.flash.pageSize_ +
                  m.flash.pageSize_ then 0xFF
              else m.flash.mem a })
          m.logicalPageCount
          (fun q => if q = m.logicalPageMap (pageIndex (address / m.pageSize)) then false
            else m.inUse q)
          (fun x => if x = pageIndex (address / m.pageSize) then pageIndex m.maxPage
            else m.logicalPageMap x)
          m.rnds m.rndIdx).allocateLogicalPage (pageIndex (address / m.pageSize))).1,
        true) := by
    unfold erasePage
    rw [if_pos hg, if_neg hc]
    dsimp only
    rw [fake_erasePage_eq m.flash _ (Nat.mul_mod_left _ _)]
    dsimp only
    rw [if_pos rfl]
    rfl
  rw [hstate]
  dsimp only
  refine PoolInv_allocate _ _ ⟨?_, ?_, ?_⟩ ⟨h2ps, hpc256, hL1, ?_⟩ hg ?_
  · intro l hl
    show (if l = pageIndex (address / m.pageSize) then pageIndex m.maxPage
        else m.logicalPageMap l) = m.maxPage ∨
      ((if l = pageIndex (address / m.pageSize) then pageIndex m.maxPage
        else m.logicalPageMap l) < m.maxPage ∧
       (if (if l = pageIndex (address / m.pageSize) then pageIndex m.maxPage
            else m.logicalPageMap l) =
           m.logicalPageMap (pageIndex (address / m.pageSize)) then false
        else m.inUse (if l = pageIndex (address / m.pageSize) then pageIndex m.maxPage
            else m.logicalPageMap l)) = true)
    by_cases hlp : l = pageIndex (address / m.pageSize)
    · rw [if_pos hlp, hpidxmax]
      left
      rfl
    · rw [if_neg hlp]
      rcases hinv.1 l hl with hcs | ⟨hlt, huse⟩
      · left
        exact hcs
      · right
        refine ⟨hlt, ?_⟩
        have hne : m.logicalPageMap l ≠
            m.logicalPageMap (pageIndex (address / m.pageSize)) := by
          intro he
          exact hlp (hinv.2.2 l hl _ hg hlt he)
        rw [if_neg hne]
        exact huse
  · intro q hq hq2
    have hq' : q < m.maxPage := hq
    have hq2' : (if q = m.logicalPageMap (pageIndex (address / m.pageSize)) then false
        else m.inUse q) = true := hq2
    by_cases hqpp : q = m.logicalPageMap (pageIndex (address / m.pageSize))
    · rw [if_pos hqpp] at hq2'
      cases hq2'
    · rw [if_neg hqpp] at hq2'
      obtain ⟨l, hl, hml⟩ := hinv.2.1 q hq' hq2'
      refine ⟨l, hl, ?_⟩
      show (if l = pageIndex (address / m.pageSize) then pageIndex m.maxPage
        else m.logicalPageMap l) = q
      have hlpg : l ≠ pageIndex (address / m.pageSize) := by
        intro he
        rw [he] at hml
        exact hqpp hml.symm
      rw [if_neg hlpg]
      exact hml
  · intro l1 hl1 l2 hl2 hlt he
    have hlt' : (if l1 = pageIndex (address / m.pageSize) then pageIndex m.maxPage
        else m.logicalPageMap l1) < m.maxPage := hlt
    have he' : (if l1 = pageIndex (address / m.pageSize) then pageIndex m.maxPage
        else m.logicalPageMap l1) =
        (if l2 = pageIndex (address / m.pageSize) then pageIndex m.maxPage
        else m.logicalPageMap l2) := he
    by_cases h1p : l1 = pageIndex (address / m.pageSize) <;>
      by_cases h2p : l2 = pageIndex (address / m.pageSize)
    · rw [h1p, h2p]
    · exfalso
      rw [if_pos h1p, hpidxmax] at hlt'
      omega
    · exfalso
      rw [if_neg h1p, if_pos h2p, hpidxmax] at he'
      rw [if_neg h1p] at hlt'
      rw [he'] at hlt'
      omega
    · rw [if_neg h1p] at hlt' he'
      rw [if_neg h2p] at he'
      exact hinv.2.2 l1 hl1 l2 hl2 hlt' he'
  · exact hLmax
  · show (if pageIndex (address / m.pageSize) = pageIndex (address / m.pageSize) then
      pageIndex m.maxPage else m.logicalPageMap (pageIndex (address / m.pageSize))) = _
    rw [if_pos rfl, hpidxmax]
    rfl

theorem erasePage_op_shape (m : LogicalPageMapper) (address : Nat) :
    SameShape m (m.erasePage address).1 := by
  unfold erasePage
  split
  · split
    · exact shape_refl m
    · dsimp only
      split
      · refine shape_trans ?_ (allocate_shape _ _)
        exact ⟨by simp [setPageInUse], by simp [setPageInUse], rfl⟩
      · exact ⟨by simp, by simp, rfl⟩
  · exact shape_refl m

/-- One write-verify iteration keeps the pool invariant, the size
constraints and the shape, and a `refresh` outcome carries the iteration
offset unchanged. -/
theorem PoolInv_webIter (m : LogicalPageMapper) (data : List Nat)
    (flashAddress address length bufSize offset : Nat)
    (hinv : PoolInv m) (hsz : SizeOk m)
    (haddr : address < m.logicalPageCount * m.pageSize) :
    PoolInv (m.webIter data flashAddress address length bufSize offset).1 ∧
    SizeOk (m.webIter data flashAddress address length bufSize offset).1 ∧
    SameShape m (m.webIter data flashAddress address length bufSize offset).1 ∧
    (∀ off1, (m.webIter data flashAddress address length bufSize offset).2 =
      .refresh off1 → off1 = offset) := by
  have hsh1 : SameShape m
      ({ m with flash := (m.flash.writePage (data.drop offset) (flashAddress + offset)
          (min bufSize (length - offset))).1 } : LogicalPageMapper) :=
    ⟨writePage_pageSize _ _ _ _, writePage_pageCount _ _ _ _, rfl⟩
  have hinv1 : PoolInv ({ m with flash := (m.flash.writePage (data.drop offset)
      (flashAddress + offset) (min bufSize (length - offset))).1 } : LogicalPageMapper) :=
    PoolInv_congr (writePage_pageCount _ _ _ _) rfl rfl rfl hinv
  have hsz1 := SizeOk_congr hsh1 hsz
  have haddr1 : address <
      ({ m with flash := (m.flash.writePage (data.drop offset) (flashAddress + offset)
          (min bufSize (length - offset))).1 } : LogicalPageMapper).logicalPageCount *
      ({ m with flash := (m.flash.writePage (data.drop offset) (flashAddress + offset)
          (min bufSize (length - offset))).1 } : LogicalPageMapper).pageSize := by
    rw [hsh1.2.2, shape_pageSize hsh1]
    exact haddr
  unfold webIter
  dsimp only
  split
  · split
    · exact ⟨hinv1, hsz1, hsh1, fun off1 h => by simp at h⟩
    · split
      · exact ⟨hinv1, hsz1, hsh1, fun off1 h => by simp at h⟩
      · split
        · refine ⟨(PoolInv_copyPage _ _ _ _ hinv1 hsz1 haddr1).1,
            (PoolInv_copyPage _ _ _ _ hinv1 hsz1 haddr1).2,
            shape_trans hsh1 (copyPage_shape _ _ _ _), ?_⟩
          intro off1 h
          dsimp only at h
          injection h with h2
          exact h2.symm
        · exact ⟨(PoolInv_copyPage _ _ _ _ hinv1 hsz1 haddr1).1,
            (PoolInv_copyPage _ _ _ _ hinv1 hsz1 haddr1).2,
            shape_trans hsh1 (copyPage_shape _ _ _ _), fun off1 h => by simp at h⟩
  · exact ⟨hinv1, hsz1, hsh1, fun off1 h => by simp at h⟩

/-- The write-verify chunk loop keeps the pool invariant, the size
constraints and the shape, and a `refresh` outcome names an offset below
`length`. -/
theorem PoolInv_webLoop (data : List Nat) (flashAddress address length bufSize : Nat) :
    ∀ fuel offset (m : LogicalPageMapper), PoolInv m → SizeOk m →
    address < m.logicalPageCount * m.pageSize →
    PoolInv (m.webLoop data flashAddress address length bufSize offset fuel).1 ∧
    SizeOk (m.webLoop data flashAddress address length bufSize offset fuel).1 ∧
    SameShape m (m.webLoop data flashAddress address length bufSize offset fuel).1 ∧
    (∀ off1, (m.webLoop data flashAddress address length bufSize offset fuel).2 =
      .refresh off1 → off1 < length) := by
  intro fuel
  induction fuel with
  | zero =>
    intro offset m hinv hsz _
    refine ⟨hinv, hsz, shape_refl m, fun off1 h => ?_⟩
    unfold webLoop at h
    simp at h
  | succ fuel ih =>
    intro offset m hinv hsz haddr
    unfold webLoop
    split
    case isFalse =>
      exact ⟨hinv, hsz, shape_refl m, fun off1 h => by simp at h⟩
    case isTrue hoff =>
    split
    case isTrue =>
      exact ⟨hinv, hsz, shape_refl m, fun off1 h => by simp at h⟩
    case isFalse =>
    split
    case h_1 m1 offset1 heq =>
      have hwi := PoolInv_webIter m data flashAddress address length bufSize offset
        hinv hsz haddr
      rw [heq] at hwi
      have haddr1 : address < m1.logicalPageCount * m1.pageSize := by
        rw [hwi.2.2.1.2.2, shape_pageSize hwi.2.2.1]
        exact haddr
      have hrec := ih offset1 m1 hwi.1 hwi.2.1 haddr1
      exact ⟨hrec.1, hrec.2.1, shape_trans hwi.2.2.1 hrec.2.2.1, hrec.2.2.2⟩
    case h_2 m1 ok heq =>
      have hwi := PoolInv_webIter m data flashAddress address length bufSize offset
        hinv hsz haddr
      rw [heq] at hwi
      exact ⟨hwi.1, hwi.2.1, hwi.2.2.1, fun off1 h => by simp at h⟩
    case h_3 m1 offset1 heq =>
      have hwi := PoolInv_webIter m data flashAddress address length bufSize offset
        hinv hsz haddr
      rw [heq] at hwi
      refine ⟨hwi.1, hwi.2.1, hwi.2.2.1, ?_⟩
      intro off1 h
      dsimp only at h
      injection h with h2
      rw [← h2]
      rw [hwi.2.2.2 offset1 rfl]
      exact hoff

/-- `writeErasePageBuf` keeps the pool invariant, the size constraints and
the shape for any in-range request. -/
theorem PoolInv_writeErasePageBuf (bufSize : Nat) :
    ∀ fuel (m : LogicalPageMapper) (data : List Nat) (address length : Nat),
    PoolInv m → SizeOk m →
    address < m.logicalPageCount * m.pageSize →
    address + length ≤ m.logicalPageCount * m.pageSize →
    PoolInv (m.writeErasePageBuf data address length bufSize fuel).1 ∧
    SizeOk (m.writeErasePageBuf data address length bufSize fuel).1 ∧
    SameShape m (m.writeErasePageBuf data address length bufSize fuel).1 := by
  intro fuel
  induction fuel with
  | zero =>
    intro m data address length hinv hsz _ _
    exact ⟨hinv, hsz, shape_refl m⟩
  | succ fuel ih =>
    intro m data address length hinv hsz haddr hrange
    have hpS : 0 < m.pageSize := by
      rcases Nat.eq_zero_or_pos m.pageSize with h | h
      · rw [h, Nat.mul_zero] at haddr
        omega
      · exact h
    have hdivlt : address / m.pageSize < m.logicalPageCount :=
      Nat.div_lt_of_lt_mul (by rw [Nat.mul_comm] at haddr; exact haddr)
    have hL255 : m.logicalPageCount < 256 := by
      obtain ⟨_, hpc256, _, hLmax⟩ := hsz
      unfold maxPage at hLmax
      omega
    have hpgidx : pageIndex (address / m.pageSize) = address / m.pageSize := by
      unfold pageIndex
      exact Nat.mod_eq_of_lt (by omega)
    have hpg : pageIndex (address / m.pageSize) < m.logicalPageCount := by
      rw [hpgidx]
      exact hdivlt
    have hfetch := PoolInv_fetch m (pageIndex (address / m.pageSize)) hinv hsz hpg
    have hfsh := fetch_shape m (pageIndex (address / m.pageSize))
    have haddrf : address <
        (m.fetchAllocatePage (pageIndex (address / m.pageSize))).1.logicalPageCount *
        (m.fetchAllocatePage (pageIndex (address / m.pageSize))).1.pageSize := by
      rw [hfsh.2.2, shape_pageSize hfsh]
      exact haddr
    unfold writeErasePageBuf
    dsimp only
    split
    case h_1 m2 off heq =>
      have hwl := PoolInv_webLoop data
        (m.physicalAddress address m.pageSize).2 address length bufSize length 0
        (m.physicalAddress address m.pageSize).1 hfetch.1 hfetch.2 haddrf
      rw [heq] at hwl
      exact ⟨hwl.1, hwl.2.1, shape_trans hfsh hwl.2.2.1⟩
    case h_2 m2 ok heq =>
      have hwl := PoolInv_webLoop data
        (m.physicalAddress address m.pageSize).2 address length bufSize length 0
        (m.physicalAddress address m.pageSize).1 hfetch.1 hfetch.2 haddrf
      rw [heq] at hwl
      exact ⟨hwl.1, hwl.2.1, shape_trans hfsh hwl.2.2.1⟩
    case h_3 m2 off heq =>
      have hwl := PoolInv_webLoop data
        (m.physicalAddress address m.pageSize).2 address length bufSize length 0
        (m.physicalAddress address m.pageSize).1 hfetch.1 hfetch.2 haddrf
      rw [heq] at hwl
      have hoff : off < length := hwl.2.2.2 off rfl
      have hsh2 : SameShape m m2 := shape_trans hfsh hwl.2.2.1
      have hprod : m2.logicalPageCount * m2.pageSize =
          m.logicalPageCount * m.pageSize := by
        rw [hsh2.2.2, shape_pageSize hsh2]
      have hrec := ih m2 (data.drop off) (address + off) (length - off)
        hwl.1 hwl.2.1 (by rw [hprod]; omega) (by rw [hprod]; omega)
      exact ⟨hrec.1, hrec.2.1, shape_trans hsh2 hrec.2.2⟩

/-- `readPage` (which may allocate through the address translation) keeps
the pool invariant, the size constraints and the shape. -/
theorem PoolInv_readPage_op (m : LogicalPageMapper) (address len : Nat)
    (hinv : PoolInv m) (hsz : SizeOk m)
    (haddr : address < m.logicalPageCount * m.pageSize) :
    PoolInv (m.readPage address len).1 ∧ SizeOk (m.readPage address len).1 ∧
    SameShape m (m.readPage address len).1 := by
  have hdivlt : address / m.pageSize < m.logicalPageCount :=
    Nat.div_lt_of_lt_mul (by rw [Nat.mul_comm] at haddr; exact haddr)
  have hL255 : m.logicalPageCount < 256 := by
    obtain ⟨_, hpc256, _, hLmax⟩ := hsz
    unfold maxPage at hLmax
    omega
  have hpg : pageIndex (address / m.pageSize) < m.logicalPageCount := by
    unfold pageIndex
    rw [Nat.mod_eq_of_lt (by omega)]
    exact hdivlt
  have hf := PoolInv_fetch m (pageIndex (address / m.pageSize)) hinv hsz hpg
  exact ⟨hf.1, hf.2, fetch_shape m (pageIndex (address / m.pageSize))⟩

/-- `writePage` keeps the pool invariant, the size constraints and the
shape: the translation may allocate, the data write is flash-only. -/
theorem PoolInv_writePage_op (m : LogicalPageMapper) (data : List Nat)
    (address len : Nat)
    (hinv : PoolInv m) (hsz : SizeOk m)
    (haddr : address < m.logicalPageCount * m.pageSize) :
    PoolInv (m.writePage data address len).1 ∧ SizeOk (m.writePage data address len).1 ∧
    SameShape m (m.writePage data address len).1 := by
  have hdivlt : address / m.pageSize < m.logicalPageCount :=
    Nat.div_lt_of_lt_mul (by rw [Nat.mul_comm] at haddr; exact haddr)
  have hL255 : m.logicalPageCount < 256 := by
    obtain ⟨_, hpc256, _, hLmax⟩ := hsz
    unfold maxPage at hLmax
    omega
  have hpg : pageIndex (address / m.pageSize) < m.logicalPageCount := by
    unfold pageIndex
    rw [Nat.mod_eq_of_lt (by omega)]
    exact hdivlt
  have hf := PoolInv_fetch m (pageIndex (address / m.pageSize)) hinv hsz hpg
  have hsh2 : SameShape (m.fetchAllocatePage (pageIndex (address / m.pageSize))).1
      (m.writePage data address len).1 :=
    ⟨writePage_pageSize _ _ _ _, writePage_pageCount _ _ _ _, rfl⟩
  refine ⟨?_, SizeOk_congr hsh2 hf.2, shape_trans (fetch_shape m _) hsh2⟩
  refine @PoolInv_congr (m.fetchAllocatePage (pageIndex (address / m.pageSize))).1
    (m.writePage data address len).1 ?_ rfl rfl rfl hf.1
  exact writePage_pageCount _ _ _ _

/-- Every operation keeps the pool invariant, the size constraints and the
shape. -/
theorem step_preserves (m : LogicalPageMapper) (op : MOp)
    (hinv : PoolInv m) (hsz : SizeOk m) (hv : ValidOp m op) :
    PoolInv (runOp m op) ∧ SizeOk (runOp m op) ∧ SameShape m (runOp m op) := by
  cases op with
  | readPage a l =>
    obtain ⟨_, hlt⟩ := hv
    exact PoolInv_readPage_op m a l hinv hsz hlt
  | writePage d a l =>
    obtain ⟨_, hlt⟩ := hv
    exact PoolInv_writePage_op m d a l hinv hsz hlt
  | writeErasePage d a l fuel =>
    obtain ⟨hle, hlt⟩ := hv
    exact PoolInv_writeErasePageBuf STACK_BUFFER_SIZE fuel m d a l hinv hsz hlt hle
  | erasePage a =>
    exact ⟨(PoolInv_erasePage m a hinv hsz).1, (PoolInv_erasePage m a hinv hsz).2,
      erasePage_op_shape m a⟩
  | copyPage a handler bs =>
    obtain ⟨hlt, _⟩ := hv
    exact ⟨(PoolInv_copyPage m a handler bs hinv hsz hlt).1,
      (PoolInv_copyPage m a handler bs hinv hsz hlt).2,
      copyPage_shape m a handler bs⟩

/-- Sequences of operations keep the pool invariant, the size constraints
and the shape. -/
theorem runOps_preserves (ops : List MOp) : ∀ m : LogicalPageMapper,
    PoolInv m → SizeOk m → (∀ op ∈ ops, ValidOp m op) →
    PoolInv (runOps m ops) ∧ SizeOk (runOps m ops) ∧ SameShape m (runOps m ops) := by
  induction ops with
  | nil =>
    intro m h1 h2 _
    exact ⟨h1, h2, shape_refl m⟩
  | cons op ops ih =>
    intro m h1 h2 hv
    have hstep := step_preserves m op h1 h2 (hv op (List.mem_cons_self op ops))
    have hrec := ih (runOp m op) hstep.1 hstep.2.1
      (fun o ho => ValidOp_congr hstep.2.2 (hv o (List.mem_cons_of_mem op ho)))
    exact ⟨hrec.1, hrec.2.1, shape_trans hstep.2.2 hrec.2.2⟩

/-- C5, corrected: the conclusion needs the RAM pool invariant of the
freshly formatted state in addition to the factory size constraint — an
adversarial pre-existing flash image can mount with every pool page in use
(see the counterexample).  Under the invariant, after any sequence of
in-range operations (whether or not they report success), the invariant
still holds and at least one pool page has its in-use bit clear. -/
theorem C5_free_pool (m : LogicalPageMapper) (ops : List MOp)
    (hinv : PoolInv m) (hsz : SizeOk m) (hv : ∀ op ∈ ops, ValidOp m op) :
    PoolInv (runOps m ops) ∧ 1 ≤ freePoolCount (runOps m ops) := by
  obtain ⟨h1, h2, _⟩ := runOps_preserves ops m hinv hsz hv
  exact ⟨h1, freePool_pos _ h1 h2⟩

end LogicalPageMapper

/-- A 4-page × 4-byte device with adversarial pre-existing contents: the
housekeeping page already carries the format signature `0x2FFF`, and pages
0, 1, 2 carry in-use headers (`0x4000`, `0x4001`, `0x4000` — logical pages
0, 1 and 0 again), so the mount marks every pool page in use. -/
def advDevice : FakeFlashDevice :=
  FakeFlashDevice.mk 4 4 (fun a =>
    if a = 0 then 0x00 else if a = 1 then 0x40 else
    if a = 4 then 0x01 else if a = 5 then 0x40 else
    if a = 8 then 0x00 else if a = 9 then 0x40 else
    if a = 13 then 0x2F else 0xFF)

/-- The mapper the factory stack would build over `advDevice` with
`freePageCount = 2` (so `logicalPageCount = 4 - 2 = 2`). -/
def advMapper : LogicalPageMapper :=
  LogicalPageMapper.construct advDevice 2 (fun _ => false) (fun _ => 0) (fun _ => 0)

/-- Counterexample to C5 as stated: over adversarial pre-existing flash
contents, the factory size constraint alone does not give a free pool
page.  `advMapper` satisfies the constraint, a `readPage` completes
successfully, and yet no pool page has its in-use bit clear. -/
theorem C5_counterexample :
    SizeOk advMapper ∧
    (advMapper.readPage 0 1).2 = some [0xFF] ∧
    freePoolCount (advMapper.readPage 0 1).1 = 0 := by
  refine ⟨?_, by decide, by decide⟩
  unfold SizeOk
  decide

/-- Witness for `C5_free_pool`: the freshly constructed mapper of the
persistence scenario satisfies the invariant; a write, a read and an erase
leave the invariant intact and a free pool page available. -/
theorem C5_free_pool_witness :
    (PoolInv persistMapper ∧ SizeOk persistMapper ∧
      (∀ op ∈ ([MOp.writePage [0xAA] 0 1, MOp.readPage 0 1,
        MOp.erasePage 0] : List MOp), ValidOp persistMapper op)) ∧
    (PoolInv (runOps persistMapper [MOp.writePage [0xAA] 0 1, MOp.readPage 0 1,
        MOp.erasePage 0]) ∧
      1 ≤ freePoolCount (runOps persistMapper [MOp.writePage [0xAA] 0 1,
        MOp.readPage 0 1, MOp.erasePage 0])) :=
  ⟨⟨by unfold PoolInv; decide, by unfold SizeOk; decide, by
      intro op hop
      simp only [List.mem_cons, List.not_mem_nil, or_false] at hop
      rcases hop with rfl | rfl | rfl
      · exact ⟨by decide, by decide⟩
      · exact ⟨by decide, by decide⟩
      · exact trivial⟩,
    LogicalPageMapper.C5_free_pool persistMapper
      [MOp.writePage [0xAA] 0 1, MOp.readPage 0 1, MOp.erasePage 0]
      (by unfold PoolInv; decide) (by unfold SizeOk; decide)
      (by
        intro op hop
        simp only [List.mem_cons, List.not_mem_nil, or_false] at hop
        rcases hop with rfl | rfl | rfl
        · exact ⟨by decide, by decide⟩
        · exact ⟨by decide, by decide⟩
        · exact trivial)⟩

end Flashee
